import Mathlib

/-!
Verification of the computational-geometry core of the Gears repository.

The Python sources (`gears/transforms.py`, `gears/geometry.py`, `gears/curves.py`,
`gears/gear_params.py`, `gears/tooth_profile.py`) are shallowly embedded below:
floating point numbers become real numbers, numpy arrays of points become lists
of pairs, Python `raise` becomes an `Except`/`Option` error value, and unbounded
`while` loops take an explicit fuel argument (`none` models divergence).
Functions that the source parameterizes only over ordered arithmetic
(`is_within_ang`, `np.remainder`, the tooth index bookkeeping of
`GearSector._sortout_teeth`) are embedded over an arbitrary linear ordered field
with a floor so that the theorems specialize both to the real-number
idealization and, for concrete witness evaluation, to the rationals.
-/

set_option linter.unusedSectionVars false
set_option linter.unusedTactic false

namespace Gears

/-- Model of `np.remainder a p` (`transforms.py` uses `np.remainder(..., np.pi * 2)`):
the representative of `a` modulo `p` lying in `[0, p)` for `p > 0`. -/
def pyRemainder {α : Type*} [LinearOrderedField α] [FloorRing α] (a p : α) : α :=
  a - p * ⌊a / p⌋

/-- Model of `is_within_ang(q_ang, st_ang, en_ang)` from `geometry.py` (lines 87-89,
identical copy in `transforms.py` lines 188-190): the test uses the AND-form when
`st_ang < en_ang` and the OR-form otherwise. -/
def is_within_ang {α : Type*} [LinearOrder α] (q_ang st_ang en_ang : α) : Bool :=
  if st_ang < en_ang then decide (st_ang ≤ q_ang) && decide (q_ang < en_ang)
  else decide (st_ang ≤ q_ang) || decide (q_ang < en_ang)

section WrapLemmas

variable {α : Type*} [LinearOrderedField α] [FloorRing α]

theorem pyRemainder_nonneg {p : α} (hp : 0 < p) (a : α) : 0 ≤ pyRemainder a p := by
  have h := Int.floor_le (a / p)
  have := mul_le_mul_of_nonneg_left h (le_of_lt hp)
  unfold pyRemainder
  have : p * (⌊a / p⌋ : α) ≤ p * (a / p) := this
  rw [mul_div_cancel₀ a (ne_of_gt hp)] at this
  linarith

theorem pyRemainder_lt {p : α} (hp : 0 < p) (a : α) : pyRemainder a p < p := by
  have h := Int.lt_floor_add_one (a / p)
  have := mul_lt_mul_of_pos_left h hp
  unfold pyRemainder
  rw [mul_add, mul_one] at this
  have h2 : p * (a / p) = a := mul_div_cancel₀ a (ne_of_gt hp)
  nlinarith [h2]

theorem pyRemainder_eq_self {p : α} (hp : 0 < p) {a : α} (h0 : 0 ≤ a) (h1 : a < p) :
    pyRemainder a p = a := by
  unfold pyRemainder
  have : ⌊a / p⌋ = 0 := by
    rw [Int.floor_eq_zero_iff]
    constructor
    · positivity
    · rw [div_lt_one hp]; exact h1
  rw [this]
  simp

theorem pyRemainder_add_int_mul {p : α} (hp : p ≠ 0) (a : α) (k : ℤ) :
    pyRemainder (a + k * p) p = pyRemainder a p := by
  unfold pyRemainder
  have : (a + k * p) / p = a / p + k := by
    field_simp
  rw [this, Int.floor_add_int]
  push_cast
  ring

theorem pyRemainder_add_cancel {p : α} (hp : p ≠ 0) (a : α) :
    pyRemainder (a + p) p = pyRemainder a p := by
  have := pyRemainder_add_int_mul hp a 1
  simpa using this

/-- The remainder differs from the argument by an integer multiple of the period. -/
theorem pyRemainder_sub_int (a p : α) : ∃ k : ℤ, pyRemainder a p = a - k * p := by
  exact ⟨⌊a / p⌋, by unfold pyRemainder; ring⟩

theorem pyRemainder_eq_pyRemainder_of_sub_int {p : α} (hp : p ≠ 0) (a b : α)
    (h : ∃ k : ℤ, a - b = k * p) : pyRemainder a p = pyRemainder b p := by
  obtain ⟨k, hk⟩ := h
  have : a = b + k * p := by linarith
  rw [this, pyRemainder_add_int_mul hp]

end WrapLemmas

end Gears

namespace Gears

/-! ## Coordinate transforms (`transforms.py`) -/

/-- Model of `np.arctan2(y, x)`: the polar angle in `(-pi, pi]`, i.e. `Complex.arg`. -/
noncomputable def arctan2 (y x : ℝ) : ℝ := Complex.arg (Complex.ofReal x + Complex.ofReal y * Complex.I)

/-- Model of `cartesian_to_polar` (`transforms.py` lines 47-50):
`ang = np.remainder(np.arctan2(y, x), np.pi * 2)`, `rad = np.linalg.norm([x, y])`. -/
noncomputable def cartesian_to_polar (x y : ℝ) : ℝ × ℝ :=
  (pyRemainder (arctan2 y x) (Real.pi * 2), Real.sqrt (x ^ 2 + y ^ 2))

/-- Model of `polar_to_cartesian` (`transforms.py` lines 53-56). -/
noncomputable def polar_to_cartesian (ang rad : ℝ) : ℝ × ℝ :=
  (rad * Real.cos ang, rad * Real.sin ang)

/-- Model of `rotate(x, y, angle)` (`transforms.py` lines 156-168). -/
noncomputable def rotate (x y angle : ℝ) : ℝ × ℝ :=
  (x * Real.cos angle - y * Real.sin angle, x * Real.sin angle + y * Real.cos angle)

/-- Model of `mirror(poi, seg_st, seg_en)` (`transforms.py` lines 12-27):
reflect `poi` across the infinite line through `seg_st` and `seg_en`. -/
noncomputable def mirror (poi seg_st seg_en : ℝ × ℝ) : ℝ × ℝ :=
  let seg : ℝ × ℝ := (seg_en.1 - seg_st.1, seg_en.2 - seg_st.2)
  let coef : ℝ := (seg.1 * (poi.1 - seg_st.1) + seg.2 * (poi.2 - seg_st.2)) /
    (seg.1 * seg.1 + seg.2 * seg.2)
  let proj : ℝ × ℝ := (seg_st.1 + seg.1 * coef, seg_st.2 + seg.2 * coef)
  (proj.1 * 2 - poi.1, proj.2 * 2 - poi.2)

/-- The complex number `cos t + sin t * I` has argument `t` up to a multiple of `2 pi`. -/
theorem arg_cos_add_sin_sub_int_mul (t : ℝ) :
    ∃ n : ℤ, Complex.arg (Complex.ofReal (Real.cos t) + Complex.ofReal (Real.sin t) * Complex.I) - t
      = n * (2 * Real.pi) := by
  set z : ℂ := Complex.ofReal (Real.cos t) + Complex.ofReal (Real.sin t) * Complex.I with hzdef
  have hz : z = Complex.exp (Complex.ofReal t * Complex.I) := by
    rw [Complex.exp_mul_I, hzdef, Complex.ofReal_cos, Complex.ofReal_sin]
  have habs : Complex.abs z = 1 := by
    rw [hz, Complex.abs_exp]
    simp
  have h1 : Complex.exp (Complex.ofReal (Complex.arg z) * Complex.I) = z := by
    have h := Complex.abs_mul_exp_arg_mul_I z
    rw [habs] at h
    simpa using h
  obtain ⟨n, hn⟩ := Complex.exp_eq_exp_iff_exists_int.mp (h1.trans hz)
  refine ⟨n, ?_⟩
  have h2 : (Complex.ofReal (Complex.arg z)) * Complex.I
      = (Complex.ofReal t + (n : ℂ) * (2 * Complex.ofReal Real.pi)) * Complex.I := by
    rw [hn]; ring
  have h3 : (Complex.ofReal (Complex.arg z))
      = Complex.ofReal t + (n : ℂ) * (2 * Complex.ofReal Real.pi) :=
    mul_right_cancel₀ Complex.I_ne_zero h2
  have h4 := congrArg Complex.re h3
  simp at h4
  rw [h4]; ring

/-- C9: for every angle `ang` and radius `rad > 0`, composing `polar_to_cartesian` with
`cartesian_to_polar` returns exactly `(ang mod 2*pi, rad)` (exact over the real-number
idealization of the floating point code), and the angle component produced by
`cartesian_to_polar` always lies in `[0, 2*pi)`. -/
theorem polar_round_trip_and_range (ang rad : ℝ) (hrad : 0 < rad) :
    cartesian_to_polar (polar_to_cartesian ang rad).1 (polar_to_cartesian ang rad).2
      = (pyRemainder ang (Real.pi * 2), rad)
    ∧ ∀ x y : ℝ, 0 ≤ (cartesian_to_polar x y).1 ∧ (cartesian_to_polar x y).1 < Real.pi * 2 := by
  have hp : (0 : ℝ) < Real.pi * 2 := by positivity
  constructor
  · unfold polar_to_cartesian cartesian_to_polar
    simp only [Prod.mk.injEq]
    constructor
    · unfold arctan2
      have hfac : Complex.ofReal (rad * Real.cos ang) + Complex.ofReal (rad * Real.sin ang) * Complex.I
          = Complex.ofReal rad * (Complex.ofReal (Real.cos ang) + Complex.ofReal (Real.sin ang) * Complex.I) := by
        push_cast
        ring
      rw [hfac, Complex.arg_real_mul _ hrad]
      obtain ⟨n, hn⟩ := arg_cos_add_sin_sub_int_mul ang
      apply pyRemainder_eq_pyRemainder_of_sub_int (ne_of_gt hp)
      exact ⟨n, by rw [hn]; ring⟩
    · have hsq : (rad * Real.cos ang) ^ 2 + (rad * Real.sin ang) ^ 2 = rad ^ 2 := by
        have := Real.sin_sq_add_cos_sq ang
        nlinarith [this]
      rw [hsq, Real.sqrt_sq hrad.le]
  · intro x y
    exact ⟨pyRemainder_nonneg hp _, pyRemainder_lt hp _⟩

/-- Witness for C9 at the concrete input `ang = 5`, `rad = 1`. -/
theorem polar_round_trip_and_range_witness :
    (0 : ℝ) < 1
    ∧ (cartesian_to_polar (polar_to_cartesian 5 1).1 (polar_to_cartesian 5 1).2
        = (pyRemainder 5 (Real.pi * 2), 1)
      ∧ ∀ x y : ℝ, 0 ≤ (cartesian_to_polar x y).1 ∧ (cartesian_to_polar x y).1 < Real.pi * 2) :=
  ⟨by norm_num, polar_round_trip_and_range 5 1 (by norm_num)⟩

/-- C10: the angular containment test `is_within_ang` is half-open at both
configurations (start included, end excluded), switches from the AND-form to the
OR-form exactly when `st >= en`, and for `st = en` it accepts every query angle. -/
theorem is_within_ang_halfopen_cases {α : Type*} [LinearOrder α] (q st en : α) :
    (st < en → (is_within_ang q st en = true ↔ st ≤ q ∧ q < en))
    ∧ (¬ st < en → (is_within_ang q st en = true ↔ st ≤ q ∨ q < en))
    ∧ (st = en → is_within_ang q st en = true) := by
  refine ⟨?_, ?_, ?_⟩
  · intro h
    simp [is_within_ang, h]
  · intro h
    simp [is_within_ang, h]
  · intro h
    subst h
    simp [is_within_ang, lt_irrefl]
    exact le_or_lt st q

/-- Witness for C10: the three cases of `is_within_ang` at concrete rational inputs
(a regular interval, a wrapping interval, and a degenerate interval). -/
theorem is_within_ang_halfopen_cases_witness :
    ((0 : ℚ) < 2 ∧ (is_within_ang 1 0 2 = true ↔ (0 : ℚ) ≤ 1 ∧ (1 : ℚ) < 2))
    ∧ (¬ (3 : ℚ) < 1 ∧ (is_within_ang 0 3 1 = true ↔ (3 : ℚ) ≤ 0 ∨ (0 : ℚ) < 1))
    ∧ ((2 : ℚ) = 2 ∧ is_within_ang 7 2 2 = true) :=
  ⟨⟨by norm_num, (is_within_ang_halfopen_cases (1 : ℚ) 0 2).1 (by norm_num)⟩,
   ⟨by norm_num, (is_within_ang_halfopen_cases (0 : ℚ) 3 1).2.1 (by norm_num)⟩,
   ⟨rfl, (is_within_ang_halfopen_cases (7 : ℚ) 2 2).2.2 rfl⟩⟩

/-! ## Line-circle intersection (`geometry.py`) -/

/-- The discriminant `radlen^2 * dr^2 - D^2` computed by `linecirc_intersec`
(`geometry.py` lines 25-43); `dr` is `np.linalg.norm([dx, dy])`. -/
noncomputable def linecirc_discriminant (x1 y1 x2 y2 cntr_x cntr_y radlen : ℝ) : ℝ :=
  let dx := x2 - x1
  let dy := y2 - y1
  let dr := Real.sqrt (dx ^ 2 + dy ^ 2)
  let D := (x1 - cntr_x) * (y2 - cntr_y) - (x2 - cntr_x) * (y1 - cntr_y)
  radlen ^ 2 * dr ^ 2 - D ^ 2

/-- Model of `linecirc_intersec` (`geometry.py` lines 5-43). The Python function
returns a 4-tuple when the discriminant is positive, a 2-tuple when it is zero, and
raises `RuntimeError` otherwise; here the tuple becomes a flat coordinate list in
`Except` and the raise becomes the `error` case. -/
noncomputable def linecirc_intersec (x1 y1 x2 y2 cntr_x cntr_y radlen : ℝ) :
    Except String (List ℝ) :=
  let dx := x2 - x1
  let dy := y2 - y1
  let dr := Real.sqrt (dx ^ 2 + dy ^ 2)
  let D := (x1 - cntr_x) * (y2 - cntr_y) - (x2 - cntr_x) * (y1 - cntr_y)
  let dr2 := dr ^ 2
  let discriminant := radlen ^ 2 * dr2 - D ^ 2
  let sgn : ℝ := if dy < 0 then -1 else 1
  if 0 < discriminant then
    .ok [(D * dy + sgn * dx * Real.sqrt discriminant) / dr2 + cntr_x,
         (-D * dx + |dy| * Real.sqrt discriminant) / dr2 + cntr_y,
         (D * dy - sgn * dx * Real.sqrt discriminant) / dr2 + cntr_x,
         (-D * dx - |dy| * Real.sqrt discriminant) / dr2 + cntr_y]
  else if discriminant = 0 then
    .ok [D * dy / dr2 + cntr_x, -D * dx / dr2 + cntr_y]
  else
    .error "No line-circumference intersection!"

/-- C8: `linecirc_intersec` raises exactly when the discriminant is negative; a
positive discriminant yields two intersection points (four coordinates) and a zero
discriminant yields the single tangent point (two coordinates). The `Except` result
type records that the error is returned to the caller, never handled internally. -/
theorem linecirc_intersec_cases (x1 y1 x2 y2 cntr_x cntr_y radlen : ℝ) :
    ((∃ e, linecirc_intersec x1 y1 x2 y2 cntr_x cntr_y radlen = .error e)
      ↔ linecirc_discriminant x1 y1 x2 y2 cntr_x cntr_y radlen < 0)
    ∧ (0 < linecirc_discriminant x1 y1 x2 y2 cntr_x cntr_y radlen →
        ∃ a b c d, linecirc_intersec x1 y1 x2 y2 cntr_x cntr_y radlen = .ok [a, b, c, d])
    ∧ (linecirc_discriminant x1 y1 x2 y2 cntr_x cntr_y radlen = 0 →
        ∃ a b, linecirc_intersec x1 y1 x2 y2 cntr_x cntr_y radlen = .ok [a, b]) := by
  unfold linecirc_intersec linecirc_discriminant
  simp only []
  by_cases h1 : 0 < radlen ^ 2 * Real.sqrt ((x2 - x1) ^ 2 + (y2 - y1) ^ 2) ^ 2 -
      ((x1 - cntr_x) * (y2 - cntr_y) - (x2 - cntr_x) * (y1 - cntr_y)) ^ 2
  · rw [if_pos h1]
    refine ⟨⟨fun ⟨e, he⟩ => by simp at he, fun hlt => absurd h1 (not_lt.mpr hlt.le)⟩, ?_, ?_⟩
    · intro _
      exact ⟨_, _, _, _, rfl⟩
    · intro h0
      rw [h0] at h1
      exact absurd h1 (lt_irrefl 0)
  · rw [if_neg h1]
    by_cases h2 : radlen ^ 2 * Real.sqrt ((x2 - x1) ^ 2 + (y2 - y1) ^ 2) ^ 2 -
        ((x1 - cntr_x) * (y2 - cntr_y) - (x2 - cntr_x) * (y1 - cntr_y)) ^ 2 = 0
    · rw [if_pos h2]
      refine ⟨⟨fun ⟨e, he⟩ => by simp at he, fun hlt => absurd h2 (ne_of_lt hlt)⟩, ?_, ?_⟩
      · intro h0
        exact absurd h0 h1
      · intro _
        exact ⟨_, _, rfl⟩
    · rw [if_neg h2]
      refine ⟨⟨fun _ => ?_, fun _ => ⟨_, rfl⟩⟩, ?_, ?_⟩
      · rcases lt_trichotomy (radlen ^ 2 * Real.sqrt ((x2 - x1) ^ 2 + (y2 - y1) ^ 2) ^ 2 -
          ((x1 - cntr_x) * (y2 - cntr_y) - (x2 - cntr_x) * (y1 - cntr_y)) ^ 2) 0 with h | h | h
        · exact h
        · exact absurd h h2
        · exact absurd h h1
      · intro h0
        exact absurd h0 h1
      · intro h0
        exact absurd h0 h2

/-- Witness for C8: the horizontal line through the origin crosses the unit circle
(discriminant `1 > 0`), yielding four coordinates. -/
theorem linecirc_intersec_cases_witness :
    0 < linecirc_discriminant 0 0 1 0 0 0 1
    ∧ ∃ a b c d, linecirc_intersec 0 0 1 0 0 0 1 = .ok [a, b, c, d] := by
  have hd : linecirc_discriminant 0 0 1 0 0 0 1 = 1 := by
    unfold linecirc_discriminant
    simp [Real.sq_sqrt]
  have hpos : 0 < linecirc_discriminant 0 0 1 0 0 0 1 := by rw [hd]; norm_num
  exact ⟨hpos, (linecirc_intersec_cases 0 0 1 0 0 0 1).2.1 hpos⟩

/-! ## Angle-radius inverter (`transforms.py`, `make_angrad_func`, lines 59-107) -/

/-- Radial distance `np.linalg.norm(func(t))` of a parametric curve at parameter `t`. -/
noncomputable def radialDist (func : ℝ → ℝ × ℝ) (t : ℝ) : ℝ :=
  Real.sqrt ((func t).1 ^ 2 + (func t).2 ^ 2)

/-- Model of the bracket-expansion `while` loop of `angrad_func`
(`while np.linalg.norm(func(t_max)) < rad: t_min, t_max = t_max, t_max + (t_max - t_min) * 2`).
The loop is unbounded in the source, so the model takes fuel; `none` models divergence. -/
noncomputable def angradExpand (func : ℝ → ℝ × ℝ) (rad : ℝ) : ℕ → ℝ × ℝ → Option (ℝ × ℝ)
  | 0, _ => none
  | n + 1, (t_min, t_max) =>
    if radialDist func t_max < rad then
      angradExpand func rad n (t_max, t_max + (t_max - t_min) * 2)
    else some (t_min, t_max)

/-- Model of the 100-iteration bisection `for` loop of `angrad_func`. The result is
`(t_curr, x, y, warned)`: `warned` is the `for ... else` warning flag, set when the
iteration cap is hit without a break; the best estimate so far is returned either way. -/
noncomputable def angradBisect (func : ℝ → ℝ × ℝ) (rad : ℝ) (is_t_inv : Bool) :
    ℕ → ℝ → ℝ → ℝ × ℝ × ℝ × Bool
  | 0, t_min, t_max => ((t_min + t_max) / 2, 0, 0, true)
  | n + 1, t_min, t_max =>
    let t_curr := (t_min + t_max) / 2
    let x := (func t_curr).1
    let y := (func t_curr).2
    let r_curr := Real.sqrt (x ^ 2 + y ^ 2)
    if r_curr = rad ∨ ¬ (if is_t_inv then t_max < t_curr ∧ t_curr < t_min
        else t_min < t_curr ∧ t_curr < t_max) then
      (t_curr, x, y, false)
    else
      match n with
      | 0 => (t_curr, x, y, true)
      | m + 1 =>
        if r_curr < rad then angradBisect func rad is_t_inv (m + 1) t_curr t_max
        else angradBisect func rad is_t_inv (m + 1) t_min t_curr

/-- Model of `angrad_func(rad, t_min, t_max)` produced by `make_angrad_func(func)`:
bracket expansion (fuelled) followed by at most 100 bisection steps, returning
`((ang, x, y, t), warned)`. -/
noncomputable def angrad_func (func : ℝ → ℝ × ℝ) (rad t_min t_max : ℝ) (fuel : ℕ) :
    Option ((ℝ × ℝ × ℝ × ℝ) × Bool) :=
  let is_t_inv : Bool := decide (t_max < t_min)
  match angradExpand func rad fuel (t_min, t_max) with
  | none => none
  | some (a, b) =>
    let out := angradBisect func rad is_t_inv 100 a b
    some ((arctan2 out.2.2.1 out.2.1, out.2.1, out.2.2.1, out.1), out.2.2.2)

/-- Comparison along the search direction of the inverter: plain `<=` when the
bracket is forward (`t_min <= t_max`), reversed otherwise. -/
def dirLE (t_min t_max u v : ℝ) : Prop := if t_min ≤ t_max then u ≤ v else v ≤ u

theorem angradExpand_succ (func : ℝ → ℝ × ℝ) (rad : ℝ) (n : ℕ) (a b : ℝ) :
    angradExpand func rad (n + 1) (a, b)
      = if radialDist func b < rad then angradExpand func rad n (b, b + (b - a) * 2)
        else some (a, b) := rfl

theorem angradExpand_isSome_forward (func : ℝ → ℝ × ℝ) (rad T : ℝ)
    (hmonoT : ∀ b : ℝ, T ≤ b → rad ≤ radialDist func b) :
    ∀ (k : ℕ) (a b : ℝ), a < b → T ≤ b + 2 * k * (b - a) →
      (angradExpand func rad (k + 1) (a, b)).isSome := by
  intro k
  induction k with
  | zero =>
    intro a b hab hT
    simp only [Nat.cast_zero, mul_zero, zero_mul, add_zero] at hT
    have hge := hmonoT b hT
    unfold angradExpand
    rw [if_neg (not_lt.mpr hge)]
    rfl
  | succ k ih =>
    intro a b hab hT
    by_cases hlt : radialDist func b < rad
    · rw [angradExpand_succ, if_pos hlt]
      apply ih b (b + (b - a) * 2) (by linarith)
      have hw : (0 : ℝ) < b - a := by linarith
      have hk : (0 : ℝ) ≤ (k : ℝ) := Nat.cast_nonneg k
      push_cast at hT ⊢
      nlinarith [mul_nonneg hk hw.le]
    · unfold angradExpand
      rw [if_neg hlt]
      rfl

theorem angradExpand_isSome_backward (func : ℝ → ℝ × ℝ) (rad T : ℝ)
    (hmonoT : ∀ b : ℝ, b ≤ T → rad ≤ radialDist func b) :
    ∀ (k : ℕ) (a b : ℝ), b < a → b + 2 * k * (b - a) ≤ T →
      (angradExpand func rad (k + 1) (a, b)).isSome := by
  intro k
  induction k with
  | zero =>
    intro a b hab hT
    simp only [Nat.cast_zero, mul_zero, zero_mul, add_zero] at hT
    have hge := hmonoT b hT
    unfold angradExpand
    rw [if_neg (not_lt.mpr hge)]
    rfl
  | succ k ih =>
    intro a b hab hT
    by_cases hlt : radialDist func b < rad
    · rw [angradExpand_succ, if_pos hlt]
      apply ih b (b + (b - a) * 2) (by linarith)
      have hw : b - a < 0 := by linarith
      have hk : (0 : ℝ) ≤ (k : ℝ) := Nat.cast_nonneg k
      push_cast at hT ⊢
      nlinarith [mul_nonneg hk (neg_nonneg.mpr hw.le)]
    · unfold angradExpand
      rw [if_neg hlt]
      rfl

/-- C4: for a curve whose radial distance is monotonically non-decreasing along the
search direction, starting at `t_min`, and eventually reaches the target radius, the
inverter `angrad_func` terminates and returns a result. The first conjunct records
that the bracket-expansion loop applies exactly the update
`(t_min, t_max) <- (t_max, t_max + (t_max - t_min) * 2)` while the radius at `t_max`
is below the target and stops as soon as it is not; the second states that some
finite fuel makes the whole inverter return `some` result (the bisection stage is a
total function capped at 100 iterations: it breaks early on exact radius equality or
when the midpoint leaves the open bracket, and on cap exhaustion sets the warning
flag of the result instead of failing). -/
theorem angrad_func_terminates (func : ℝ → ℝ × ℝ) (rad t_min t_max : ℝ)
    (hne : t_min ≠ t_max)
    (hmono : ∀ u v : ℝ, dirLE t_min t_max t_min u → dirLE t_min t_max u v →
      radialDist func u ≤ radialDist func v)
    (hreach : ∃ T : ℝ, dirLE t_min t_max t_min T ∧ rad ≤ radialDist func T) :
    (∀ (n : ℕ) (a b : ℝ),
        (radialDist func b < rad →
          angradExpand func rad (n + 1) (a, b) = angradExpand func rad n (b, b + (b - a) * 2))
        ∧ (¬ radialDist func b < rad → angradExpand func rad (n + 1) (a, b) = some (a, b)))
    ∧ ∃ (n : ℕ) (out : (ℝ × ℝ × ℝ × ℝ) × Bool), angrad_func func rad t_min t_max n = some out := by
  constructor
  · intro n a b
    constructor
    · intro h
      rw [angradExpand_succ, if_pos h]
    · intro h
      rw [angradExpand_succ, if_neg h]
  · obtain ⟨T, hT1, hT2⟩ := hreach
    have key : ∃ n : ℕ, (angradExpand func rad n (t_min, t_max)).isSome := by
      by_cases hdir : t_min ≤ t_max
      · have hlt : t_min < t_max := lt_of_le_of_ne hdir hne
        have hTmin : t_min ≤ T := by
          have := hT1
          unfold dirLE at this
          rwa [if_pos hdir] at this
        have hmonoT : ∀ b : ℝ, T ≤ b → rad ≤ radialDist func b := by
          intro b hb
          refine hT2.trans (hmono T b ?_ ?_) <;> unfold dirLE <;> rw [if_pos hdir]
          · exact hTmin
          · exact hb
        obtain ⟨k, hk⟩ := exists_nat_ge ((T - t_max) / (2 * (t_max - t_min)))
        have hw : (0 : ℝ) < 2 * (t_max - t_min) := by linarith
        have hle : T ≤ t_max + 2 * k * (t_max - t_min) := by
          have := (div_le_iff₀ hw).mp hk
          nlinarith
        exact ⟨k + 1, angradExpand_isSome_forward func rad T hmonoT k t_min t_max hlt hle⟩
      · have hlt : t_max < t_min := lt_of_not_ge hdir
        have hdir2 : ¬ t_min ≤ t_max := hdir
        have hTmin : T ≤ t_min := by
          have := hT1
          unfold dirLE at this
          rwa [if_neg hdir2] at this
        have hmonoT : ∀ b : ℝ, b ≤ T → rad ≤ radialDist func b := by
          intro b hb
          refine hT2.trans (hmono T b ?_ ?_) <;> unfold dirLE <;> rw [if_neg hdir2]
          · exact hTmin
          · exact hb
        obtain ⟨k, hk⟩ := exists_nat_ge ((t_max - T) / (2 * (t_min - t_max)))
        have hw : (0 : ℝ) < 2 * (t_min - t_max) := by linarith
        have hle : t_max + 2 * k * (t_max - t_min) ≤ T := by
          have := (div_le_iff₀ hw).mp hk
          nlinarith
        exact ⟨k + 1, angradExpand_isSome_backward func rad T hmonoT k t_min t_max hlt hle⟩
    obtain ⟨n, hsome⟩ := key
    obtain ⟨⟨a, b⟩, hab⟩ := Option.isSome_iff_exists.mp hsome
    refine ⟨n, ?_, ?_⟩
    · exact ((arctan2 (angradBisect func rad (decide (t_max < t_min)) 100 a b).2.2.1
          (angradBisect func rad (decide (t_max < t_min)) 100 a b).2.1,
        (angradBisect func rad (decide (t_max < t_min)) 100 a b).2.1,
        (angradBisect func rad (decide (t_max < t_min)) 100 a b).2.2.1,
        (angradBisect func rad (decide (t_max < t_min)) 100 a b).1),
        (angradBisect func rad (decide (t_max < t_min)) 100 a b).2.2.2)
    · unfold angrad_func
      rw [hab]

/-- Witness for C4: the curve `t mapsto (t, 0)` with bracket `(0, 1)` and target
radius `5` satisfies the hypotheses, so the inverter returns a result. -/
theorem angrad_func_terminates_witness :
    ((0 : ℝ) ≠ 1)
    ∧ (∀ u v : ℝ, dirLE 0 1 0 u → dirLE 0 1 u v →
        radialDist (fun t => (t, 0)) u ≤ radialDist (fun t => (t, 0)) v)
    ∧ (∃ T : ℝ, dirLE 0 1 0 T ∧ 5 ≤ radialDist (fun t => (t, 0)) T)
    ∧ ((∀ (n : ℕ) (a b : ℝ),
        (radialDist (fun t => (t, 0)) b < 5 →
          angradExpand (fun t => (t, 0)) 5 (n + 1) (a, b)
            = angradExpand (fun t => (t, 0)) 5 n (b, b + (b - a) * 2))
        ∧ (¬ radialDist (fun t => (t, 0)) b < 5 →
          angradExpand (fun t => (t, 0)) 5 (n + 1) (a, b) = some (a, b)))
      ∧ ∃ (n : ℕ) (out : (ℝ × ℝ × ℝ × ℝ) × Bool),
          angrad_func (fun t => (t, 0)) 5 0 1 n = some out) := by
  have h01 : (0 : ℝ) ≤ 1 := by norm_num
  have hmono : ∀ u v : ℝ, dirLE 0 1 0 u → dirLE 0 1 u v →
      radialDist (fun t => (t, 0)) u ≤ radialDist (fun t => (t, 0)) v := by
    intro u v h1 h2
    unfold dirLE at h1 h2
    rw [if_pos h01] at h1 h2
    unfold radialDist
    apply Real.sqrt_le_sqrt
    have : u ^ 2 ≤ v ^ 2 := by nlinarith
    simpa using this
  have hreach : ∃ T : ℝ, dirLE 0 1 0 T ∧ 5 ≤ radialDist (fun t => (t, 0)) T := by
    refine ⟨5, ?_, ?_⟩
    · unfold dirLE
      rw [if_pos h01]
      norm_num
    · unfold radialDist
      have h1 : ((5 : ℝ), (0 : ℝ)).1 ^ 2 + ((5 : ℝ), (0 : ℝ)).2 ^ 2 = 5 ^ 2 := by norm_num
      simp only [h1]
      rw [Real.sqrt_sq (by norm_num : (0 : ℝ) ≤ 5)]
  exact ⟨by norm_num, hmono, hreach,
    angrad_func_terminates (fun t => (t, 0)) 5 0 1 (by norm_num) hmono hreach⟩

/-! ## Equidistant resampler (`transforms.py`, `equidistant`, lines 110-149) -/

/-- Model of `np.arange(st, en, step)`: the `ceil((en - st) / step)` values
`st + k * step`. -/
noncomputable def pyArange (st en step : ℝ) : List ℝ :=
  (List.range (Int.toNat ⌈(en - st) / step⌉)).map (fun k => st + k * step)

/-- Euclidean distance between consecutive sample points (`np.linalg.norm(xy_dif)`). -/
noncomputable def ptDist (p q : ℝ × ℝ) : ℝ :=
  Real.sqrt ((q.1 - p.1) ^ 2 + (q.2 - p.2) ^ 2)

/-- Consecutive point distances `dists` of `equidistant`. -/
noncomputable def consecDists (pts : List (ℝ × ℝ)) : List ℝ :=
  List.zipWith ptDist pts pts.tail

/-- Linear interpolation through knots `(cum_dist, t)`, the model of
`interp1d(cum_dists, t_range, kind='linear')`. -/
noncomputable def interpLin : List (ℝ × ℝ) → ℝ → ℝ
  | [], _ => 0
  | [(_, t)], _ => t
  | (c0, t0) :: (c1, t1) :: rest, q =>
    if q ≤ c1 then t0 + (q - c0) * (t1 - t0) / (c1 - c0)
    else interpLin ((c1, t1) :: rest) q

/-- One refinement pass of `equidistant`: rebuild the parameter sampling from the
cumulative arc length, keeping the interval endpoints exactly
(`np.concatenate(([t_st], dist_t_interp_func(dist_range), [t_en]))`). -/
noncomputable def equidistantRefine (func : ℝ → ℝ × ℝ) (t_st t_en step : ℝ)
    (t_range : List ℝ) : List ℝ :=
  let points := t_range.map func
  let dists := consecDists points
  let cum_dists := List.scanl (fun acc d => acc + d) 0 dists
  let total_dist := cum_dists.getLastD 0
  let seg_num := Int.toNat ⌈total_dist / step⌉
  let dist_step := total_dist / seg_num
  let dist_range := (pyArange dist_step total_dist dist_step).take (seg_num - 1)
  t_st :: dist_range.map (interpLin (cum_dists.zip t_range)) ++ [t_en]

/-- Model of the `for i in range(10)` refinement loop of `equidistant`, with the
remaining iteration count as first argument. The Boolean records the `for ... else`
warning (cap hit without reaching tolerance); either way a point list is returned. -/
noncomputable def equidistantLoop (func : ℝ → ℝ × ℝ) (t_st t_en step tolerance : ℝ) :
    ℕ → List ℝ → List (ℝ × ℝ) × Bool
  | 0, t_range => (t_range.map func, true)
  | n + 1, t_range =>
    let points := t_range.map func
    if ∀ d ∈ consecDists points, |(d - step) / step| ≤ tolerance then (points, false)
    else if n = 0 then (points, true)
    else equidistantLoop func t_st t_en step tolerance n
      (equidistantRefine func t_st t_en step t_range)

/-- Model of `equidistant(func, t_lims, step, tolerance)`: start from the uniform
8-segment subdivision and run at most 10 refinement passes. -/
noncomputable def equidistant (func : ℝ → ℝ × ℝ) (t_lims : ℝ × ℝ) (step tolerance : ℝ) :
    List (ℝ × ℝ) × Bool :=
  let t_st := t_lims.1
  let t_en := t_lims.2
  let seg_num : ℕ := 8
  let t_step := (t_en - t_st) / seg_num
  let t_range := (pyArange t_st t_en t_step).take seg_num ++ [t_en]
  equidistantLoop func t_st t_en step tolerance 10 t_range

theorem equidistantRefine_head (func : ℝ → ℝ × ℝ) (t_st t_en step : ℝ) (t_range : List ℝ) :
    (equidistantRefine func t_st t_en step t_range).head? = some t_st := rfl

theorem equidistantRefine_getLast (func : ℝ → ℝ × ℝ) (t_st t_en step : ℝ)
    (t_range : List ℝ) :
    (equidistantRefine func t_st t_en step t_range).getLast? = some t_en := by
  unfold equidistantRefine
  simp only [← List.cons_append, List.getLast?_concat]

theorem equidistantLoop_endpoints (func : ℝ → ℝ × ℝ) (t_st t_en step tolerance : ℝ) :
    ∀ (n : ℕ) (t_range : List ℝ), t_range.head? = some t_st →
      t_range.getLast? = some t_en →
      (equidistantLoop func t_st t_en step tolerance n t_range).1.head? = some (func t_st)
      ∧ (equidistantLoop func t_st t_en step tolerance n t_range).1.getLast?
          = some (func t_en) := by
  intro n
  induction n with
  | zero =>
    intro t_range hh hl
    constructor
    · show (t_range.map func).head? = some (func t_st)
      simp only [List.head?_map, hh, Option.map_some']
    · show (t_range.map func).getLast? = some (func t_en)
      simp only [List.getLast?_map, hl, Option.map_some']
  | succ n ih =>
    intro t_range hh hl
    show ((if ∀ d ∈ consecDists (t_range.map func), |(d - step) / step| ≤ tolerance
        then (t_range.map func, false)
        else if n = 0 then (t_range.map func, true)
        else equidistantLoop func t_st t_en step tolerance n
          (equidistantRefine func t_st t_en step t_range)).1.head? = some (func t_st))
      ∧ ((if ∀ d ∈ consecDists (t_range.map func), |(d - step) / step| ≤ tolerance
        then (t_range.map func, false)
        else if n = 0 then (t_range.map func, true)
        else equidistantLoop func t_st t_en step tolerance n
          (equidistantRefine func t_st t_en step t_range)).1.getLast? = some (func t_en))
    by_cases hc : ∀ d ∈ consecDists (t_range.map func), |(d - step) / step| ≤ tolerance
    · rw [if_pos hc]
      constructor
      · simp only [List.head?_map, hh, Option.map_some']
      · simp only [List.getLast?_map, hl, Option.map_some']
    · rw [if_neg hc]
      by_cases hn : n = 0
      · rw [if_pos hn]
        constructor
        · simp only [List.head?_map, hh, Option.map_some']
        · simp only [List.getLast?_map, hl, Option.map_some']
      · rw [if_neg hn]
        exact ih (equidistantRefine func t_st t_en step t_range)
          (equidistantRefine_head func t_st t_en step t_range)
          (equidistantRefine_getLast func t_st t_en step t_range)

/-- C7: for every curve and parameter interval with `t_st /= t_en`, the resampler
starts from the uniform 8-segment subdivision, keeps the curve evaluated exactly at
`t_st` as first point and exactly at `t_en` as last point of the returned sequence,
and every refinement pass rebuilds the range as `t_st :: interpolated ++ [t_en]`, so
the endpoints are never perturbed; the loop itself is capped at 10 passes and on
non-convergence only sets the warning Boolean of the result, never failing. -/
theorem equidistant_endpoints_exact (func : ℝ → ℝ × ℝ) (t_st t_en step tolerance : ℝ)
    (hne : t_st ≠ t_en) :
    (equidistant func (t_st, t_en) step tolerance).1.head? = some (func t_st)
    ∧ (equidistant func (t_st, t_en) step tolerance).1.getLast? = some (func t_en)
    ∧ (pyArange t_st t_en ((t_en - t_st) / 8)).take 8
        = (List.range 8).map (fun k : ℕ => t_st + (k : ℝ) * ((t_en - t_st) / 8))
    ∧ (∀ t_range : List ℝ,
        (equidistantRefine func t_st t_en step t_range).head? = some t_st
        ∧ (equidistantRefine func t_st t_en step t_range).getLast? = some t_en) := by
  have hsub : t_en - t_st ≠ 0 := sub_ne_zero.mpr (Ne.symm hne)
  have hq : (t_en - t_st) / ((t_en - t_st) / 8) = 8 := by
    field_simp
  have harange : pyArange t_st t_en ((t_en - t_st) / 8)
      = (List.range 8).map (fun k : ℕ => t_st + (k : ℝ) * ((t_en - t_st) / 8)) := by
    unfold pyArange
    rw [hq, show ((8 : ℝ)) = ((8 : ℤ) : ℝ) by norm_num, Int.ceil_intCast]
    rfl
  have htake : (pyArange t_st t_en ((t_en - t_st) / 8)).take 8
      = (List.range 8).map (fun k : ℕ => t_st + (k : ℝ) * ((t_en - t_st) / 8)) := by
    rw [harange]
    apply List.take_of_length_le
    simp
  have hrange8 : List.range 8 = [0, 1, 2, 3, 4, 5, 6, 7] := rfl
  have hinit_head : ((pyArange t_st t_en ((t_en - t_st) / 8)).take 8 ++ [t_en]).head?
      = some t_st := by
    rw [htake, hrange8]
    simp
  have hinit_last : ((pyArange t_st t_en ((t_en - t_st) / 8)).take 8 ++ [t_en]).getLast?
      = some t_en := List.getLast?_concat _
  have hloop := equidistantLoop_endpoints func t_st t_en step tolerance 10
    ((pyArange t_st t_en ((t_en - t_st) / 8)).take 8 ++ [t_en]) hinit_head hinit_last
  refine ⟨?_, ?_, htake, ?_⟩
  · exact hloop.1
  · exact hloop.2
  · intro t_range
    exact ⟨equidistantRefine_head func t_st t_en step t_range,
      equidistantRefine_getLast func t_st t_en step t_range⟩

/-- Witness for C7 at the constant curve with interval `(0, 1)`, step `1`,
tolerance `1`. -/
theorem equidistant_endpoints_exact_witness :
    (0 : ℝ) ≠ 1
    ∧ ((equidistant (fun _ => ((0 : ℝ), (0 : ℝ))) (0, 1) 1 1).1.head? = some (0, 0)
      ∧ (equidistant (fun _ => ((0 : ℝ), (0 : ℝ))) (0, 1) 1 1).1.getLast? = some (0, 0)
      ∧ (pyArange (0 : ℝ) 1 ((1 - 0) / 8)).take 8
          = (List.range 8).map (fun k : ℕ => (0 : ℝ) + (k : ℝ) * ((1 - 0) / 8))
      ∧ (∀ t_range : List ℝ,
          (equidistantRefine (fun _ => ((0 : ℝ), (0 : ℝ))) 0 1 1 t_range).head? = some 0
          ∧ (equidistantRefine (fun _ => ((0 : ℝ), (0 : ℝ))) 0 1 1 t_range).getLast?
              = some 1)) :=
  ⟨by norm_num, equidistant_endpoints_exact (fun _ => ((0 : ℝ), (0 : ℝ))) 0 1 1 1 (by norm_num)⟩

/-! ## Full-tooth assembly (`tooth_profile.py`, `stack_curves` lines 508-518 and
`GearSector._build_full_tooth` lines 277-281) -/

/-- Model of `stack_curves(*curves)`: keep the first curve whole and drop the first
(seam-duplicate) point of every following curve before concatenating. -/
def stack_curves (curves : List (List (ℝ × ℝ))) : List (ℝ × ℝ) :=
  match curves with
  | [] => []
  | c :: rest => c ++ (rest.map (fun line => line.drop 1)).flatten

/-- Model of `GearSector._build_full_tooth`: mirror the second half-tooth profile
about the ray at angle `-quater_angle`, reverse it, and stitch it with the first
half-tooth profile. -/
noncomputable def build_full_tooth (ht1_profile ht0_profile : List (ℝ × ℝ))
    (quater_angle : ℝ) : List (ℝ × ℝ) :=
  let sec_st : ℝ × ℝ := (0, 0)
  let sec_en : ℝ × ℝ := (Real.cos (-quater_angle), Real.sin (-quater_angle))
  let reflected := ht1_profile.map (fun point => mirror point sec_st sec_en)
  stack_curves [reflected.reverse, ht0_profile]

theorem stack_curves_pair (a b : List (ℝ × ℝ)) : stack_curves [a, b] = a ++ b.drop 1 := by
  unfold stack_curves
  simp

/-- Reflecting the point at polar angle `t` and radius `R` across the ray at angle `a`
produces the point at polar angle `2 * a - t` and the same radius. -/
theorem mirror_polar (R t a : ℝ) :
    mirror (R * Real.cos t, R * Real.sin t) (0, 0) (Real.cos a, Real.sin a)
      = (R * Real.cos (2 * a - t), R * Real.sin (2 * a - t)) := by
  have hpyth : Real.sin a ^ 2 + Real.cos a ^ 2 = 1 := Real.sin_sq_add_cos_sq a
  have hden : Real.cos a * Real.cos a + Real.sin a * Real.sin a = 1 := by nlinarith
  unfold mirror
  simp only [sub_zero, zero_add]
  rw [hden]
  rw [Prod.mk.injEq]
  constructor
  · rw [show 2 * a - t = a + (a - t) by ring, Real.cos_add, Real.cos_sub, Real.sin_sub]
    field_simp
    linear_combination (R * Real.cos t) * hpyth
  · rw [show 2 * a - t = a + (a - t) by ring, Real.sin_add, Real.cos_sub, Real.sin_sub]
    field_simp
    linear_combination (R * Real.sin t) * hpyth

/-- C6: the full-tooth profile equals the second half-tooth profile mirrored about
the ray at `-quater_angle` (half the tooth angular pitch below the centerline),
reversed, concatenated with the first half-tooth profile with exactly one seam point
removed; its length is `len p1 + len p0 - 1`; and when the two half-tooth profiles
end at radius `R1` (resp. `R0`) on the ray at angle `quater_angle`, the stitched
tooth runs from polar angle `-3 * quater_angle` to `quater_angle`, i.e. it spans
`4 * quater_angle`, the full tooth angle. -/
theorem build_full_tooth_mirror_stitch (p0 p1 : List (ℝ × ℝ)) (q R0 R1 : ℝ)
    (hp0 : 2 ≤ p0.length)
    (hlast1 : p1.getLast? = some (R1 * Real.cos q, R1 * Real.sin q))
    (hlast0 : p0.getLast? = some (R0 * Real.cos q, R0 * Real.sin q)) :
    build_full_tooth p1 p0 q
      = (p1.map (fun point => mirror point (0, 0) (Real.cos (-q), Real.sin (-q)))).reverse
        ++ p0.drop 1
    ∧ (build_full_tooth p1 p0 q).length = p1.length + p0.length - 1
    ∧ (build_full_tooth p1 p0 q).head?
        = some (R1 * Real.cos (-3 * q), R1 * Real.sin (-3 * q))
    ∧ (build_full_tooth p1 p0 q).getLast? = some (R0 * Real.cos q, R0 * Real.sin q) := by
  have hshape : build_full_tooth p1 p0 q
      = (p1.map (fun point => mirror point (0, 0) (Real.cos (-q), Real.sin (-q)))).reverse
        ++ p0.drop 1 := by
    unfold build_full_tooth
    rw [stack_curves_pair]
  have hp1ne : p1 ≠ [] := by
    intro h
    rw [h] at hlast1
    simp at hlast1
  refine ⟨hshape, ?_, ?_, ?_⟩
  · rw [hshape]
    rw [List.length_append, List.length_reverse, List.length_map, List.length_drop]
    omega
  · rw [hshape]
    have hne : (p1.map (fun point => mirror point (0, 0)
        (Real.cos (-q), Real.sin (-q)))).reverse ≠ [] := by
      simp [hp1ne]
    cases hrev : (p1.map (fun point => mirror point (0, 0)
        (Real.cos (-q), Real.sin (-q)))).reverse with
    | nil => exact absurd hrev hne
    | cons a t =>
      have hhead : ((a :: t) ++ p0.drop 1).head? = some a := rfl
      rw [hhead]
      have h1 : (a :: t).head? = some a := rfl
      rw [← hrev, List.head?_reverse, List.getLast?_map, hlast1] at h1
      simp only [Option.map_some'] at h1
      rw [mirror_polar R1 q (-q)] at h1
      have hang : 2 * -q - q = -3 * q := by ring
      rw [hang] at h1
      exact h1.symm
  · rw [hshape]
    match p0, hp0 with
    | a :: b :: tl, _ =>
      have hdrop : (a :: b :: tl).drop 1 = b :: tl := rfl
      rw [hdrop, List.getLast?_append_of_ne_nil _ (by simp)]
      rw [← List.getLast?_cons_cons (a := a)]
      exact hlast0

/-- Witness for C6: two concrete half-tooth profiles ending on the ray at angle `0`. -/
theorem build_full_tooth_mirror_stitch_witness :
    2 ≤ ([((2 : ℝ), (0 : ℝ)), ((2 : ℝ), (0 : ℝ))] : List (ℝ × ℝ)).length
    ∧ ([((1 : ℝ), (0 : ℝ))] : List (ℝ × ℝ)).getLast?
        = some (1 * Real.cos 0, 1 * Real.sin 0)
    ∧ ([((2 : ℝ), (0 : ℝ)), ((2 : ℝ), (0 : ℝ))] : List (ℝ × ℝ)).getLast?
        = some (2 * Real.cos 0, 2 * Real.sin 0)
    ∧ (build_full_tooth [((1 : ℝ), (0 : ℝ))] [((2 : ℝ), (0 : ℝ)), ((2 : ℝ), (0 : ℝ))] 0
        = (([((1 : ℝ), (0 : ℝ))] : List (ℝ × ℝ)).map
            (fun point => mirror point (0, 0) (Real.cos (-0), Real.sin (-0)))).reverse
          ++ ([((2 : ℝ), (0 : ℝ)), ((2 : ℝ), (0 : ℝ))] : List (ℝ × ℝ)).drop 1
      ∧ (build_full_tooth [((1 : ℝ), (0 : ℝ))] [((2 : ℝ), (0 : ℝ)), ((2 : ℝ), (0 : ℝ))] 0).length
          = ([((1 : ℝ), (0 : ℝ))] : List (ℝ × ℝ)).length
            + ([((2 : ℝ), (0 : ℝ)), ((2 : ℝ), (0 : ℝ))] : List (ℝ × ℝ)).length - 1
      ∧ (build_full_tooth [((1 : ℝ), (0 : ℝ))] [((2 : ℝ), (0 : ℝ)), ((2 : ℝ), (0 : ℝ))] 0).head?
          = some (1 * Real.cos (-3 * 0), 1 * Real.sin (-3 * 0))
      ∧ (build_full_tooth [((1 : ℝ), (0 : ℝ))] [((2 : ℝ), (0 : ℝ)), ((2 : ℝ), (0 : ℝ))] 0).getLast?
          = some (2 * Real.cos 0, 2 * Real.sin 0)) := by
  have h1 : ([((1 : ℝ), (0 : ℝ))] : List (ℝ × ℝ)).getLast?
      = some (1 * Real.cos 0, 1 * Real.sin 0) := by
    simp
  have h0 : ([((2 : ℝ), (0 : ℝ)), ((2 : ℝ), (0 : ℝ))] : List (ℝ × ℝ)).getLast?
      = some (2 * Real.cos 0, 2 * Real.sin 0) := by
    simp
  exact ⟨by norm_num, h1, h0,
    build_full_tooth_mirror_stitch [((2 : ℝ), (0 : ℝ)), ((2 : ℝ), (0 : ℝ))]
      [((1 : ℝ), (0 : ℝ))] 0 2 1 (by norm_num) h1 h0⟩

/-! ## Parametric curves (`curves.py`) -/

/-- Model of `circle(t, r, a0)`. -/
noncomputable def circle (t r a0 : ℝ) : ℝ × ℝ :=
  (r * Real.cos (t + a0), r * Real.sin (t + a0))

/-- Model of `involute(t, r, a0)`. -/
noncomputable def involute (t r a0 : ℝ) : ℝ × ℝ :=
  (r * (Real.cos (t + a0) + t * Real.sin (t + a0)),
   r * (Real.sin (t + a0) - t * Real.cos (t + a0)))

/-- Model of `epitrochoid(t, R, r, d, a0)`. -/
noncomputable def epitrochoid (t R r d a0 : ℝ) : ℝ × ℝ :=
  ((R + r) * Real.cos (t + a0) - d * Real.cos (R * t / r + (t + a0)),
   (R + r) * Real.sin (t + a0) - d * Real.sin (R * t / r + (t + a0)))

/-- Model of `epitrochoid_flat(t, R, l, a0)`. -/
noncomputable def epitrochoid_flat (t R l a0 : ℝ) : ℝ × ℝ :=
  ((R - l) * Real.cos (t + a0) + t * R * Real.sin (t + a0),
   (R - l) * Real.sin (t + a0) - t * R * Real.cos (t + a0))

/-! ## Derived gear dimensions (`gear_params.py`, `GearParams._calc_*`, lines 47-73) -/

/-- Model of `pitch_diameter = tooth_num * module`, halved. -/
noncomputable def pitch_radius (tooth_num : ℕ) (module : ℝ) : ℝ :=
  (tooth_num : ℝ) * module / 2

/-- Model of `outside_diameter = pitch_diameter + addendum * 2`, halved
(`addendum = module * ad_coef`). -/
noncomputable def outside_radius (tooth_num : ℕ) (module ad_coef : ℝ) : ℝ :=
  ((tooth_num : ℝ) * module + module * ad_coef * 2) / 2

/-- Model of `root_diameter = pitch_diameter - dedendum * 2`, halved
(`dedendum = module * de_coef`). -/
noncomputable def root_radius (tooth_num : ℕ) (module de_coef : ℝ) : ℝ :=
  ((tooth_num : ℝ) * module - module * de_coef * 2) / 2

/-- Model of `base_diameter = pitch_diameter * np.cos(pressure_angle)`, halved. -/
noncomputable def base_radius (tooth_num : ℕ) (module pressure_angle : ℝ) : ℝ :=
  (tooth_num : ℝ) * module * Real.cos pressure_angle / 2

/-- Model of `tooth_angle = 2 * np.pi / tooth_num`. -/
noncomputable def tooth_angle (tooth_num : ℕ) : ℝ :=
  2 * Real.pi / (tooth_num : ℝ)

/-- Model of `circular_pitch = module * np.pi`. -/
noncomputable def circular_pitch (module : ℝ) : ℝ :=
  module * Real.pi

/-! ## Half-tooth profile parameters (`tooth_profile.py`, `HalfTooth`) -/

/-- Model of `quater_angle = tooth_angle / 4` (line 64). -/
noncomputable def quater_angle (tooth_num : ℕ) : ℝ :=
  tooth_angle tooth_num / 4

/-- Model of `HalfTooth._calc_shift_ang` (lines 114-117): the radial shift projected
onto the rack, as a fraction of the circular pitch, times the tooth angle. -/
noncomputable def calc_shift_ang (tooth_num : ℕ) (module pressure_angle radial_shift : ℝ) : ℝ :=
  tooth_angle tooth_num * (radial_shift * Real.tan pressure_angle / circular_pitch module)

/-- Model of `HalfTooth._calc_epitrochoid_flat_shift_ang` (lines 119-120):
`_calc_shift_ang(dedendum)`. -/
noncomputable def calc_epitrochoid_flat_shift_ang (tooth_num : ℕ)
    (module pressure_angle de_coef : ℝ) : ℝ :=
  calc_shift_ang tooth_num module pressure_angle (module * de_coef)

/-- Model of `HalfTooth._calc_invol_epitr_flat` (lines 132-141): the radius and polar
angle of the theoretical involute/flat-epitrochoid junction for a rack cutter. -/
noncomputable def calc_invol_epitr_flat (dedendum pressure_angle root_rad : ℝ) : ℝ × ℝ :=
  let invol_epitr_rad := Real.sqrt ((dedendum / Real.tan pressure_angle) ^ 2 + root_rad ^ 2)
  let invol_epitr_angle := Real.pi / 2 - Real.arccos (root_rad / invol_epitr_rad) + pressure_angle
  (invol_epitr_rad, invol_epitr_angle)

/-- Model of `self.is_tooth_undercut = invol_epitr_angle * 2 < np.pi` (line 101),
rack-cutter case. -/
def is_tooth_undercut (dedendum pressure_angle root_rad : ℝ) : Prop :=
  (calc_invol_epitr_flat dedendum pressure_angle root_rad).2 * 2 < Real.pi

/-- Model of `HalfTooth._build_half_tooth` (lines 202-213) for a rack cutter, taking
the four curve-parameter limit pairs computed by `_calc_profile_params` as inputs:
resample the four curves and stitch them root-to-outside. -/
noncomputable def build_half_tooth_points (base_rad outside_rad root_rad : ℝ)
    (involute_a0 epitrochoid_R epitrochoid_l epitrochoid_a0 : ℝ)
    (involute_lims epitrochoid_lims outside_circle_lims root_circle_lims : ℝ × ℝ)
    (resolution tolerance : ℝ) : List (ℝ × ℝ) :=
  let points_involute := (equidistant (fun t => involute t base_rad involute_a0)
    involute_lims resolution tolerance).1
  let points_epitrochoid := (equidistant
    (fun t => epitrochoid_flat t epitrochoid_R epitrochoid_l epitrochoid_a0)
    epitrochoid_lims resolution tolerance).1
  let points_outside := (equidistant (fun t => circle t outside_rad 0)
    outside_circle_lims resolution tolerance).1
  let points_root := (equidistant (fun t => circle t root_rad 0)
    root_circle_lims resolution tolerance).1
  stack_curves [points_root, points_epitrochoid, points_involute, points_outside]

/-! ## Auxiliary facts about the resampler and stitched curves -/

theorem equidistant_head_getLast (func : ℝ → ℝ × ℝ) (t_st t_en step tolerance : ℝ)
    (hne : t_st ≠ t_en) :
    (equidistant func (t_st, t_en) step tolerance).1.head? = some (func t_st)
    ∧ (equidistant func (t_st, t_en) step tolerance).1.getLast? = some (func t_en) := by
  have hsub : t_en - t_st ≠ 0 := sub_ne_zero.mpr (Ne.symm hne)
  have hq : (t_en - t_st) / ((t_en - t_st) / 8) = 8 := by
    field_simp
  have harange : pyArange t_st t_en ((t_en - t_st) / 8)
      = (List.range 8).map (fun k : ℕ => t_st + (k : ℝ) * ((t_en - t_st) / 8)) := by
    unfold pyArange
    rw [hq, show ((8 : ℝ)) = ((8 : ℤ) : ℝ) by norm_num, Int.ceil_intCast]
    rfl
  have hinit_head : ((pyArange t_st t_en ((t_en - t_st) / 8)).take 8 ++ [t_en]).head?
      = some t_st := by
    rw [harange, show List.range 8 = [0, 1, 2, 3, 4, 5, 6, 7] from rfl]
    simp
  have hinit_last : ((pyArange t_st t_en ((t_en - t_st) / 8)).take 8 ++ [t_en]).getLast?
      = some t_en := List.getLast?_concat _
  exact equidistantLoop_endpoints func t_st t_en step tolerance 10
    ((pyArange t_st t_en ((t_en - t_st) / 8)).take 8 ++ [t_en]) hinit_head hinit_last

theorem equidistantLoop_length_ge_two (func : ℝ → ℝ × ℝ) (t_st t_en step tolerance : ℝ) :
    ∀ (n : ℕ) (t_range : List ℝ), 2 ≤ t_range.length →
      2 ≤ (equidistantLoop func t_st t_en step tolerance n t_range).1.length := by
  intro n
  induction n with
  | zero =>
    intro t_range h
    show 2 ≤ (t_range.map func).length
    simpa using h
  | succ n ih =>
    intro t_range h
    show 2 ≤ ((if ∀ d ∈ consecDists (t_range.map func), |(d - step) / step| ≤ tolerance
        then (t_range.map func, false)
        else if n = 0 then (t_range.map func, true)
        else equidistantLoop func t_st t_en step tolerance n
          (equidistantRefine func t_st t_en step t_range)).1.length)
    by_cases hc : ∀ d ∈ consecDists (t_range.map func), |(d - step) / step| ≤ tolerance
    · rw [if_pos hc]
      simpa using h
    · rw [if_neg hc]
      by_cases hn : n = 0
      · rw [if_pos hn]
        simpa using h
      · rw [if_neg hn]
        apply ih
        unfold equidistantRefine
        simp

theorem equidistant_length_ge_two (func : ℝ → ℝ × ℝ) (t_st t_en step tolerance : ℝ)
    (hne : t_st ≠ t_en) :
    2 ≤ (equidistant func (t_st, t_en) step tolerance).1.length := by
  have hsub : t_en - t_st ≠ 0 := sub_ne_zero.mpr (Ne.symm hne)
  have hq : (t_en - t_st) / ((t_en - t_st) / 8) = 8 := by
    field_simp
  have harange : pyArange t_st t_en ((t_en - t_st) / 8)
      = (List.range 8).map (fun k : ℕ => t_st + (k : ℝ) * ((t_en - t_st) / 8)) := by
    unfold pyArange
    rw [hq, show ((8 : ℝ)) = ((8 : ℤ) : ℝ) by norm_num, Int.ceil_intCast]
    rfl
  have h2 : 2 ≤ ((pyArange t_st t_en ((t_en - t_st) / 8)).take 8 ++ [t_en]).length := by
    rw [harange]
    simp
  exact equidistantLoop_length_ge_two func t_st t_en step tolerance 10 _ h2

theorem head?_append_left {α : Type*} (l₁ l₂ : List α) (h : l₁ ≠ []) :
    (l₁ ++ l₂).head? = l₁.head? := by
  cases l₁ with
  | nil => exact absurd rfl h
  | cons a t => rfl

theorem stack_curves_four (a b c d : List (ℝ × ℝ)) :
    stack_curves [a, b, c, d] = a ++ (b.drop 1 ++ (c.drop 1 ++ d.drop 1)) := by
  unfold stack_curves
  simp

/-- Points of the model circle lie at distance `|r|` from the origin. -/
theorem circle_radius (t r a0 : ℝ) (hr : 0 ≤ r) :
    Real.sqrt ((circle t r a0).1 ^ 2 + (circle t r a0).2 ^ 2) = r := by
  unfold circle
  have h : (r * Real.cos (t + a0)) ^ 2 + (r * Real.sin (t + a0)) ^ 2 = r ^ 2 := by
    have := Real.sin_sq_add_cos_sq (t + a0)
    nlinarith
  rw [h, Real.sqrt_sq hr]

/-! ## Numeric bounds on the trigonometric values at the concrete pressure angle -/

theorem sin_01745_bounds : (0.17356 : ℝ) ≤ Real.sin 0.1745 ∧ Real.sin 0.1745 ≤ 0.17367 := by
  have habs : |(0.1745 : ℝ)| = 0.1745 := abs_of_pos (by norm_num)
  have h := Real.sin_bound (x := 0.1745) (by rw [habs]; norm_num)
  rw [habs] at h
  have h2 := abs_le.mp h
  have e1 : (0.1745 : ℝ) - 0.1745 ^ 3 / 6 - 0.1745 ^ 4 * (5 / 96) ≥ 0.17356 := by norm_num
  have e2 : (0.1745 : ℝ) - 0.1745 ^ 3 / 6 + 0.1745 ^ 4 * (5 / 96) ≤ 0.17367 := by norm_num
  constructor
  · linarith [h2.1]
  · linarith [h2.2]

theorem cos_01745_bounds : (0.98467 : ℝ) ≤ Real.cos 0.1745 ∧ Real.cos 0.1745 ≤ 0.98488 := by
  have habs : |(0.1745 : ℝ)| = 0.1745 := abs_of_pos (by norm_num)
  have h := Real.cos_bound (x := 0.1745) (by rw [habs]; norm_num)
  rw [habs] at h
  have h2 := abs_le.mp h
  have e1 : (1 : ℝ) - 0.1745 ^ 2 / 2 - 0.1745 ^ 4 * (5 / 96) ≥ 0.98467 := by norm_num
  have e2 : (1 : ℝ) - 0.1745 ^ 2 / 2 + 0.1745 ^ 4 * (5 / 96) ≤ 0.98488 := by norm_num
  constructor
  · linarith [h2.1]
  · linarith [h2.2]

theorem cos_0349_bounds : (0.93967 : ℝ) ≤ Real.cos 0.349 ∧ Real.cos 0.349 ≤ 0.93976 := by
  have hs := sin_01745_bounds
  have hpy := Real.sin_sq_add_cos_sq (0.1745 : ℝ)
  have hval : Real.cos 0.349 = 1 - 2 * Real.sin 0.1745 ^ 2 := by
    rw [show (0.349 : ℝ) = 2 * 0.1745 by norm_num, Real.cos_two_mul']
    linarith [hpy]
  rw [hval]
  constructor
  · nlinarith [hs.1, hs.2]
  · nlinarith [hs.1, hs.2]

theorem sin_0349_bounds : (0.34179 : ℝ) ≤ Real.sin 0.349 ∧ Real.sin 0.349 ≤ 0.34209 := by
  have hs := sin_01745_bounds
  have hc := cos_01745_bounds
  have hval : Real.sin 0.349 = 2 * Real.sin 0.1745 * Real.cos 0.1745 := by
    rw [show (0.349 : ℝ) = 2 * 0.1745 by norm_num, Real.sin_two_mul]
  rw [hval]
  constructor
  · nlinarith [hs.1, hs.2, hc.1, hc.2]
  · nlinarith [hs.1, hs.2, hc.1, hc.2]

theorem tan_0349_bounds : (0.36369 : ℝ) ≤ Real.tan 0.349 ∧ Real.tan 0.349 ≤ 0.36406 := by
  have hs := sin_0349_bounds
  have hc := cos_0349_bounds
  have hcpos : (0 : ℝ) < Real.cos 0.349 := by linarith [hc.1]
  rw [Real.tan_eq_sin_div_cos]
  constructor
  · rw [le_div_iff₀ hcpos]
    nlinarith [hc.2]
  · rw [div_le_iff₀ hcpos]
    nlinarith [hc.1]

theorem getLast?_drop_one {α : Type*} (l : List α) (h : 2 ≤ l.length) :
    (l.drop 1).getLast? = l.getLast? := by
  match l, h with
  | a :: b :: t, _ =>
    have : (a :: b :: t).drop 1 = b :: t := rfl
    rw [this, List.getLast?_cons_cons]

theorem arccos_le_of_cos_le {c x : ℝ} (h : Real.cos c ≤ x) (hc0 : 0 ≤ c)
    (hcpi : c ≤ Real.pi) : Real.arccos x ≤ c := by
  have hmono := Real.monotone_arcsin h
  have heq : Real.arccos (Real.cos c) = c := Real.arccos_cos hc0 hcpi
  rw [Real.arccos_eq_pi_div_two_sub_arcsin] at heq ⊢
  linarith

theorem not_undercut_18_teeth : ¬ is_tooth_undercut (10 * 1) 0.349 (root_radius 18 10 1) := by
  have hroot : root_radius 18 10 1 = 80 := by unfold root_radius; norm_num
  rw [hroot]
  unfold is_tooth_undercut calc_invol_epitr_flat
  simp only []
  intro hcon
  have htan := tan_0349_bounds
  have htpos : (0 : ℝ) < Real.tan 0.349 := by linarith [htan.1]
  have hRpos : 0 < Real.sqrt ((10 * 1 / Real.tan 0.349) ^ 2 + (80 : ℝ) ^ 2) := by
    apply Real.sqrt_pos.mpr
    positivity
  have hdivle : 10 * 1 / Real.tan 0.349 ≤ 10 * 1 / 0.36369 := by
    rw [div_le_div_iff₀ htpos (by norm_num)]
    nlinarith [htan.1]
  have hdivpos : (0 : ℝ) ≤ 10 * 1 / Real.tan 0.349 := by positivity
  have hXle : (10 * 1 / Real.tan 0.349) ^ 2 + (80 : ℝ) ^ 2
      ≤ (10 * 1 / (0.36369 : ℝ)) ^ 2 + 80 ^ 2 := by
    nlinarith [hdivle, hdivpos]
  have hRle : Real.sqrt ((10 * 1 / Real.tan 0.349) ^ 2 + (80 : ℝ) ^ 2)
      ≤ 80 / 0.93976 := by
    have h2 : (10 * 1 / (0.36369 : ℝ)) ^ 2 + 80 ^ 2 ≤ ((80 : ℝ) / 0.93976) ^ 2 := by
      norm_num
    calc Real.sqrt ((10 * 1 / Real.tan 0.349) ^ 2 + (80 : ℝ) ^ 2)
        ≤ Real.sqrt (((80 : ℝ) / 0.93976) ^ 2) := Real.sqrt_le_sqrt (le_trans hXle h2)
      _ = 80 / 0.93976 := Real.sqrt_sq (by norm_num)
  have hc := cos_0349_bounds
  have hcosle : Real.cos 0.349
      ≤ 80 / Real.sqrt ((10 * 1 / Real.tan 0.349) ^ 2 + (80 : ℝ) ^ 2) := by
    rw [le_div_iff₀ hRpos]
    nlinarith [hc.1, hc.2, hRle, hRpos]
  have hA := arccos_le_of_cos_le hcosle (by norm_num) (by linarith [Real.pi_gt_d6])
  linarith [hA, hcon]

theorem root_circle_lims_ne :
    -(quater_angle 18) ≠ -(calc_epitrochoid_flat_shift_ang 18 10 0.349 1) := by
  intro h
  have h2 : quater_angle 18 = calc_epitrochoid_flat_shift_ang 18 10 0.349 1 := neg_inj.mp h
  unfold quater_angle tooth_angle calc_epitrochoid_flat_shift_ang calc_shift_ang
    tooth_angle circular_pitch at h2
  have hpi := Real.pi_gt_d6
  have hpine : Real.pi ≠ 0 := Real.pi_ne_zero
  have htan := tan_0349_bounds
  rw [show ((18 : ℕ) : ℝ) = 18 by norm_num] at h2
  field_simp at h2
  nlinarith [htan.2, hpi]

/-- C1 counterexample: with `tooth_num = 18`, `module = 10`, dedendum coefficient `1`,
the code computes `root_radius = (18 * 10 - 10 * 1 * 2) / 2 = 80`, not `70` as the
claim states (so the first profile point lies at radius 80, not 70). -/
theorem root_radius_18_10_1_ne_70 : root_radius 18 10 1 = 80 ∧ root_radius 18 10 1 ≠ 70 := by
  unfold root_radius
  norm_num

/-- C1 (amended): for `tooth_num = 18`, `module = 10`, `pressure_angle = 0.349`,
addendum and dedendum coefficients `1`, the model computes `outside_radius = 100`
exactly, `root_radius = 80` exactly (the claim said 70), `base_radius` within `0.01`
of `84.57`, the undercut flag is `False`, and for any values of the inverter-derived
curve limits the assembled half-tooth profile starts at radius exactly 80 (the root
radius; the claim said about 70) and ends at radius exactly 100 (the outside
radius). -/
theorem half_tooth_concrete_scenario
    (t_inv_min t_out t_epi_max ang_dif a0i a0e : ℝ)
    (h_out : ang_dif ≠ quater_angle 18) :
    outside_radius 18 10 1 = 100
    ∧ root_radius 18 10 1 = 80
    ∧ |base_radius 18 10 0.349 - 84.57| < 1 / 100
    ∧ ¬ is_tooth_undercut (10 * 1) 0.349 (root_radius 18 10 1)
    ∧ ∃ pf pl,
        (build_half_tooth_points (base_radius 18 10 0.349) (outside_radius 18 10 1)
            (root_radius 18 10 1) a0i (pitch_radius 18 10) (10 * 1) a0e
            (t_inv_min, t_out) (0, t_epi_max) (ang_dif, quater_angle 18)
            (-(quater_angle 18), -(calc_epitrochoid_flat_shift_ang 18 10 0.349 1))
            0.1 0.1).head? = some pf
        ∧ (build_half_tooth_points (base_radius 18 10 0.349) (outside_radius 18 10 1)
            (root_radius 18 10 1) a0i (pitch_radius 18 10) (10 * 1) a0e
            (t_inv_min, t_out) (0, t_epi_max) (ang_dif, quater_angle 18)
            (-(quater_angle 18), -(calc_epitrochoid_flat_shift_ang 18 10 0.349 1))
            0.1 0.1).getLast? = some pl
        ∧ Real.sqrt (pf.1 ^ 2 + pf.2 ^ 2) = 80
        ∧ Real.sqrt (pl.1 ^ 2 + pl.2 ^ 2) = 100 := by
  have hout100 : outside_radius 18 10 1 = 100 := by unfold outside_radius; norm_num
  have hroot80 : root_radius 18 10 1 = 80 := by unfold root_radius; norm_num
  refine ⟨hout100, hroot80, ?_, not_undercut_18_teeth, ?_⟩
  · have hc := cos_0349_bounds
    unfold base_radius
    rw [show ((18 : ℕ) : ℝ) = 18 by norm_num]
    rw [abs_lt]
    constructor
    · nlinarith [hc.1]
    · nlinarith [hc.2]
  · have hrootpts := equidistant_head_getLast (fun t => circle t (root_radius 18 10 1) 0)
      (-(quater_angle 18)) (-(calc_epitrochoid_flat_shift_ang 18 10 0.349 1)) 0.1 0.1
      root_circle_lims_ne
    have houtpts := equidistant_head_getLast (fun t => circle t (outside_radius 18 10 1) 0)
      ang_dif (quater_angle 18) 0.1 0.1 h_out
    have hlenO := equidistant_length_ge_two (fun t => circle t (outside_radius 18 10 1) 0)
      ang_dif (quater_angle 18) 0.1 0.1 h_out
    unfold build_half_tooth_points
    rw [stack_curves_four]
    set Rpts := (equidistant (fun t => circle t (root_radius 18 10 1) 0)
      (-(quater_angle 18), -(calc_epitrochoid_flat_shift_ang 18 10 0.349 1)) 0.1 0.1).1
      with hRdef
    set Epts := (equidistant (fun t => epitrochoid_flat t (pitch_radius 18 10) (10 * 1) a0e)
      (0, t_epi_max) 0.1 0.1).1 with hEdef
    set Ipts := (equidistant (fun t => involute t (base_radius 18 10 0.349) a0i)
      (t_inv_min, t_out) 0.1 0.1).1 with hIdef
    set Opts := (equidistant (fun t => circle t (outside_radius 18 10 1) 0)
      (ang_dif, quater_angle 18) 0.1 0.1).1 with hOdef
    have hRne : Rpts ≠ [] := by
      intro h
      rw [h] at hrootpts
      simp at hrootpts
    have hOdrop : Opts.drop 1 ≠ [] := by
      have hlen : 1 ≤ (Opts.drop 1).length := by
        rw [List.length_drop]
        omega
      intro h
      rw [h] at hlen
      simp at hlen
    refine ⟨circle (-(quater_angle 18)) (root_radius 18 10 1) 0,
      circle (quater_angle 18) (outside_radius 18 10 1) 0, ?_, ?_, ?_, ?_⟩
    · rw [head?_append_left _ _ hRne]
      exact hrootpts.1
    · have htail_ne : Epts.drop 1 ++ (Ipts.drop 1 ++ Opts.drop 1) ≠ [] := by
        intro h
        rw [List.append_eq_nil] at h
        have h2 := h.2
        rw [List.append_eq_nil] at h2
        exact hOdrop h2.2
      rw [List.getLast?_append_of_ne_nil _ htail_ne]
      have htail2_ne : Ipts.drop 1 ++ Opts.drop 1 ≠ [] := by
        intro h
        rw [List.append_eq_nil] at h
        exact hOdrop h.2
      rw [List.getLast?_append_of_ne_nil _ htail2_ne]
      rw [List.getLast?_append_of_ne_nil _ hOdrop]
      rw [getLast?_drop_one Opts hlenO]
      exact houtpts.2
    · rw [circle_radius _ _ _ (by rw [hroot80]; norm_num), hroot80]
    · rw [circle_radius _ _ _ (by rw [hout100]; norm_num), hout100]

/-- Witness for the amended C1 theorem at concrete values of the inverter-derived
limits. -/
theorem half_tooth_concrete_scenario_witness :
    ((0 : ℝ) ≠ quater_angle 18)
    ∧ (outside_radius 18 10 1 = 100
      ∧ root_radius 18 10 1 = 80
      ∧ |base_radius 18 10 0.349 - 84.57| < 1 / 100
      ∧ ¬ is_tooth_undercut (10 * 1) 0.349 (root_radius 18 10 1)
      ∧ ∃ pf pl,
          (build_half_tooth_points (base_radius 18 10 0.349) (outside_radius 18 10 1)
              (root_radius 18 10 1) 0 (pitch_radius 18 10) (10 * 1) 0
              (0, 1) (0, 1) (0, quater_angle 18)
              (-(quater_angle 18), -(calc_epitrochoid_flat_shift_ang 18 10 0.349 1))
              0.1 0.1).head? = some pf
          ∧ (build_half_tooth_points (base_radius 18 10 0.349) (outside_radius 18 10 1)
              (root_radius 18 10 1) 0 (pitch_radius 18 10) (10 * 1) 0
              (0, 1) (0, 1) (0, quater_angle 18)
              (-(quater_angle 18), -(calc_epitrochoid_flat_shift_ang 18 10 0.349 1))
              0.1 0.1).getLast? = some pl
          ∧ Real.sqrt (pf.1 ^ 2 + pf.2 ^ 2) = 80
          ∧ Real.sqrt (pl.1 ^ 2 + pl.2 ^ 2) = 100) := by
  have hq : (0 : ℝ) ≠ quater_angle 18 := by
    unfold quater_angle tooth_angle
    have hpi := Real.pi_pos
    intro h
    rw [show ((18 : ℕ) : ℝ) = 18 by norm_num] at h
    nlinarith [hpi]
  exact ⟨hq, half_tooth_concrete_scenario 0 1 1 0 0 0 hq⟩

/-! ## Flank-fillet transition search (`tooth_profile.py`, `HalfTooth`) -/

/-- Model of `HalfTooth._find_involute_epitrochoid_contact_t_vals` (lines 168-180):
direct evaluation of both angle-radius inverses at the junction radius. `fi` and
`fe` are the involute and (flat) epitrochoid curves with their parameters applied. -/
noncomputable def find_involute_epitrochoid_contact_t_vals (fi fe : ℝ → ℝ × ℝ)
    (invol_epitr_rad : ℝ) (fuel : ℕ) : Option (ℝ × ℝ) :=
  match angrad_func fi invol_epitr_rad 0 1 fuel, angrad_func fe invol_epitr_rad 0 (-0.1) fuel with
  | some o1, some o2 => some (o1.1.2.2.2, o2.1.2.2.2)
  | _, _ => none

/-- Model of `HalfTooth._find_involute_epitrochoid_intersection` (lines 182-200):
bisection over the radius between the base and outside radii, comparing the angles
at which the two curves reach the candidate radius; capped at 100 iterations
(`for _ in range(100)`), warning (not failing) on cap exhaustion. -/
noncomputable def find_involute_epitrochoid_intersection (fi fe : ℝ → ℝ × ℝ)
    (fuel : ℕ) : ℕ → ℝ → ℝ → Option (ℝ × ℝ × ℝ)
  | 0, _, _ => none
  | n + 1, r_min, r_max =>
    let r_curr := (r_min + r_max) / 2
    match angrad_func fi r_curr 0 1 fuel, angrad_func fe r_curr 0 (-0.1) fuel with
    | some o1, some o2 =>
      if o1.1.1 = o2.1.1 ∨ ¬ (r_min < r_curr ∧ r_curr < r_max) then
        some (o1.1.2.2.2, o2.1.2.2.2, r_curr)
      else if n = 0 then some (o1.1.2.2.2, o2.1.2.2.2, r_curr)
      else if o1.1.1 < o2.1.1 then
        find_involute_epitrochoid_intersection fi fe fuel n r_curr r_max
      else
        find_involute_epitrochoid_intersection fi fe fuel n r_min r_curr
    | _, _ => none

open Classical in
/-- Model of the transition-location branch of `HalfTooth._calc_profile_params`
(lines 100-106): the bisection intersection routine when the tooth is undercut,
direct angle-radius evaluation at the theoretical junction radius otherwise (the
junction radius also becomes `min_r_cont` in that branch). -/
noncomputable def calc_profile_transition (dedendum pressure_angle root_rad : ℝ)
    (fi fe : ℝ → ℝ × ℝ) (base_rad outside_rad : ℝ) (fuel : ℕ) : Option (ℝ × ℝ × ℝ) :=
  if is_tooth_undercut dedendum pressure_angle root_rad then
    find_involute_epitrochoid_intersection fi fe fuel 100 base_rad outside_rad
  else
    match find_involute_epitrochoid_contact_t_vals fi fe
        (calc_invol_epitr_flat dedendum pressure_angle root_rad).1 fuel with
    | some (t1, t2) =>
      some (t1, t2, (calc_invol_epitr_flat dedendum pressure_angle root_rad).1)
    | none => none

theorem find_involute_epitrochoid_intersection_succ (fi fe : ℝ → ℝ × ℝ) (fuel n : ℕ)
    (r_min r_max : ℝ) :
    find_involute_epitrochoid_intersection fi fe fuel (n + 1) r_min r_max
      = match angrad_func fi ((r_min + r_max) / 2) 0 1 fuel,
          angrad_func fe ((r_min + r_max) / 2) 0 (-0.1) fuel with
        | some o1, some o2 =>
          if o1.1.1 = o2.1.1
              ∨ ¬ (r_min < (r_min + r_max) / 2 ∧ (r_min + r_max) / 2 < r_max) then
            some (o1.1.2.2.2, o2.1.2.2.2, (r_min + r_max) / 2)
          else if n = 0 then some (o1.1.2.2.2, o2.1.2.2.2, (r_min + r_max) / 2)
          else if o1.1.1 < o2.1.1 then
            find_involute_epitrochoid_intersection fi fe fuel n ((r_min + r_max) / 2) r_max
          else find_involute_epitrochoid_intersection fi fe fuel n r_min ((r_min + r_max) / 2)
        | _, _ => none := rfl

theorem find_intersection_isSome (fi fe : ℝ → ℝ × ℝ) (fuel : ℕ)
    (hfi : ∀ r : ℝ, (angrad_func fi r 0 1 fuel).isSome)
    (hfe : ∀ r : ℝ, (angrad_func fe r 0 (-0.1) fuel).isSome) :
    ∀ (n : ℕ) (r_min r_max : ℝ), 1 ≤ n →
      (find_involute_epitrochoid_intersection fi fe fuel n r_min r_max).isSome := by
  intro n
  induction n with
  | zero =>
    intro r_min r_max h
    omega
  | succ n ih =>
    intro r_min r_max _
    obtain ⟨o1, ho1⟩ := Option.isSome_iff_exists.mp (hfi ((r_min + r_max) / 2))
    obtain ⟨o2, ho2⟩ := Option.isSome_iff_exists.mp (hfe ((r_min + r_max) / 2))
    rw [find_involute_epitrochoid_intersection_succ, ho1, ho2]
    dsimp only
    by_cases hc1 : o1.1.1 = o2.1.1
        ∨ ¬ (r_min < (r_min + r_max) / 2 ∧ (r_min + r_max) / 2 < r_max)
    · rw [if_pos hc1]
      rfl
    · rw [if_neg hc1]
      by_cases hn0 : n = 0
      · rw [if_pos hn0]
        rfl
      · rw [if_neg hn0]
        by_cases hlt : o1.1.1 < o2.1.1
        · rw [if_pos hlt]
          exact ih _ _ (by omega)
        · rw [if_neg hlt]
          exact ih _ _ (by omega)

open Classical in
/-- C3: the undercut flag (`invol_epitr_angle * 2 < pi` in the code) holds exactly
when the junction angle `pi/2 - arccos(root_radius / junction_radius) + pressure_angle`
is less than `pi/2`; the transition is located by the bisection intersection routine
exactly in the undercut case and by direct angle-radius evaluation at the junction
radius otherwise; and neither branch has an exception path: the direct branch returns
a value whenever its two inverter calls return, and the bisection branch returns a
value whenever the inverter returns for the candidate radii. -/
theorem undercut_classification_and_branch (dedendum pressure_angle root_rad : ℝ)
    (fi fe : ℝ → ℝ × ℝ) (base_rad outside_rad : ℝ) (fuel : ℕ) :
    (is_tooth_undercut dedendum pressure_angle root_rad
      ↔ Real.pi / 2 - Real.arccos (root_rad /
          Real.sqrt ((dedendum / Real.tan pressure_angle) ^ 2 + root_rad ^ 2))
          + pressure_angle < Real.pi / 2)
    ∧ calc_profile_transition dedendum pressure_angle root_rad fi fe base_rad outside_rad
          fuel
        = (if Real.pi / 2 - Real.arccos (root_rad /
              Real.sqrt ((dedendum / Real.tan pressure_angle) ^ 2 + root_rad ^ 2))
              + pressure_angle < Real.pi / 2
           then find_involute_epitrochoid_intersection fi fe fuel 100 base_rad outside_rad
           else match find_involute_epitrochoid_contact_t_vals fi fe
               (calc_invol_epitr_flat dedendum pressure_angle root_rad).1 fuel with
             | some (t1, t2) =>
               some (t1, t2, (calc_invol_epitr_flat dedendum pressure_angle root_rad).1)
             | none => none)
    ∧ (∀ o1 o2,
        angrad_func fi (calc_invol_epitr_flat dedendum pressure_angle root_rad).1 0 1 fuel
          = some o1 →
        angrad_func fe (calc_invol_epitr_flat dedendum pressure_angle root_rad).1 0 (-0.1)
          fuel = some o2 →
        find_involute_epitrochoid_contact_t_vals fi fe
          (calc_invol_epitr_flat dedendum pressure_angle root_rad).1 fuel
          = some (o1.1.2.2.2, o2.1.2.2.2))
    ∧ (∀ (n : ℕ) (r_min r_max : ℝ), 1 ≤ n →
        (∀ r : ℝ, (angrad_func fi r 0 1 fuel).isSome) →
        (∀ r : ℝ, (angrad_func fe r 0 (-0.1) fuel).isSome) →
        (find_involute_epitrochoid_intersection fi fe fuel n r_min r_max).isSome) := by
  have h1 : is_tooth_undercut dedendum pressure_angle root_rad
      ↔ Real.pi / 2 - Real.arccos (root_rad /
          Real.sqrt ((dedendum / Real.tan pressure_angle) ^ 2 + root_rad ^ 2))
          + pressure_angle < Real.pi / 2 := by
    unfold is_tooth_undercut calc_invol_epitr_flat
    simp only []
    constructor
    · intro h
      linarith
    · intro h
      linarith
  refine ⟨h1, ?_, ?_, ?_⟩
  · unfold calc_profile_transition
    by_cases h : is_tooth_undercut dedendum pressure_angle root_rad
    · rw [if_pos h, if_pos (h1.mp h)]
    · rw [if_neg h, if_neg (fun hc => h (h1.mpr hc))]
  · intro o1 o2 ho1 ho2
    unfold find_involute_epitrochoid_contact_t_vals
    rw [ho1, ho2]
  · intro n r_min r_max hn hfi hfe
    exact find_intersection_isSome fi fe fuel hfi hfe n r_min r_max hn

/-! ## Tooth bookkeeping of `GearSector._sortout_teeth` (`tooth_profile.py` lines
320-342), over an arbitrary linear ordered field with floor so the same development
serves the real-number idealization and rational witness evaluation. -/

section Sortout

variable {α : Type*} [LinearOrderedField α] [FloorRing α]

/-- Congruence modulo the period `p`. -/
def modEq (p a b : α) : Prop := ∃ k : ℤ, a - b = k * p

theorem modEq_refl (p a : α) : modEq p a a := ⟨0, by ring⟩

theorem modEq_symm {p a b : α} (h : modEq p a b) : modEq p b a := by
  obtain ⟨k, hk⟩ := h
  exact ⟨-k, by push_cast; linarith⟩

theorem modEq_trans {p a b c : α} (h1 : modEq p a b) (h2 : modEq p b c) : modEq p a c := by
  obtain ⟨k1, hk1⟩ := h1
  obtain ⟨k2, hk2⟩ := h2
  exact ⟨k1 + k2, by push_cast; linarith⟩

theorem modEq_sub (p a b c d : α) (h1 : modEq p a b) (h2 : modEq p c d) :
    modEq p (a - c) (b - d) := by
  obtain ⟨k1, hk1⟩ := h1
  obtain ⟨k2, hk2⟩ := h2
  exact ⟨k1 - k2, by push_cast; linarith⟩

theorem modEq_add (p a b c d : α) (h1 : modEq p a b) (h2 : modEq p c d) :
    modEq p (a + c) (b + d) := by
  obtain ⟨k1, hk1⟩ := h1
  obtain ⟨k2, hk2⟩ := h2
  exact ⟨k1 + k2, by push_cast; linarith⟩

theorem pyRemainder_modEq (a p : α) : modEq p (pyRemainder a p) a := by
  exact ⟨-⌊a / p⌋, by unfold pyRemainder; push_cast; ring⟩

theorem pyRemainder_eq_of_modEq {p : α} (hp : p ≠ 0) {a b : α} (h : modEq p a b) :
    pyRemainder a p = pyRemainder b p :=
  pyRemainder_eq_pyRemainder_of_sub_int hp a b h

theorem eq_of_modEq_of_range {p : α} (hp : 0 < p) {a b : α} (ha0 : 0 ≤ a) (ha1 : a < p)
    (hb0 : 0 ≤ b) (hb1 : b < p) (h : modEq p a b) : a = b := by
  obtain ⟨k, hk⟩ := h
  have hk0 : k = 0 := by
    by_contra hne
    rcases lt_or_gt_of_ne hne with hlt | hgt
    · have : (k : α) ≤ -1 := by
        have : (k : ℤ) ≤ -1 := by omega
        exact_mod_cast this
      nlinarith
    · have : (1 : α) ≤ (k : α) := by
        have : (1 : ℤ) ≤ k := by omega
        exact_mod_cast this
      nlinarith
  rw [hk0] at hk
  push_cast at hk
  linarith

theorem pyRemainder_eq_iff_modEq {p : α} (hp : 0 < p) (a b : α) :
    pyRemainder a p = pyRemainder b p ↔ modEq p a b := by
  constructor
  · intro h
    have h1 := pyRemainder_modEq a p
    have h2 := pyRemainder_modEq b p
    have := modEq_trans (modEq_symm h1) (modEq_trans ⟨0, by rw [h]; ring⟩ h2)
    exact this
  · exact pyRemainder_eq_of_modEq (ne_of_gt hp)

theorem pyRemainder_of_neg_range {p : α} (hp : 0 < p) {x : α} (h0 : -p ≤ x) (h1 : x < 0) :
    pyRemainder x p = x + p := by
  rw [← pyRemainder_add_cancel (ne_of_gt hp) x]
  exact pyRemainder_eq_self hp (by linarith) (by linarith)

theorem pyRemainder_neg_of_ne_zero {p : α} (hp : 0 < p) {x : α}
    (hx : pyRemainder x p ≠ 0) : pyRemainder (-x) p = p - pyRemainder x p := by
  have hx0 := pyRemainder_nonneg hp x
  have hx1 := pyRemainder_lt hp x
  have hcong : modEq p (-x) (-(pyRemainder x p)) := by
    obtain ⟨k, hk⟩ := pyRemainder_modEq x p
    exact ⟨k, by linarith⟩
  rw [pyRemainder_eq_of_modEq (ne_of_gt hp) hcong]
  rw [pyRemainder_of_neg_range hp (by linarith) (by
    rcases lt_or_eq_of_le hx0 with h | h
    · linarith
    · exact absurd h.symm hx)]
  ring

end Sortout

section SortoutDefs

variable {α : Type*} [LinearOrderedField α] [FloorRing α]

/-- Model of `teeth_sts = np.remainder(ang0 + tooth_angle * np.arange(tooth_num), 2*pi)`
(line 322), with the period `p` abstracted: the angular start of tooth `i`. -/
def teeth_sts (p tooth_ang ang0 : α) (i : ℕ) : α :=
  pyRemainder (ang0 + tooth_ang * i) p

/-- Model of `teeth_sts_in_sector_bm` including the `teeth_sts == sec_en` fix
(lines 325-326). -/
def tooth_st_bm (p tooth_ang ang0 : α) (sec_st sec_en : α) (i : ℕ) : Bool :=
  is_within_ang (teeth_sts p tooth_ang ang0 i) sec_st sec_en
    || decide (teeth_sts p tooth_ang ang0 i = sec_en)

/-- Model of `seg_st_within_tooth_bm[i]` resp. `seg_en_within_tooth_bm[i]`
(lines 328-331): does the angle `edge` fall within tooth `i`'s span
(`teeth_ens = np.roll(teeth_sts, -1)`, line 323). -/
def seg_edge_within (p tooth_ang ang0 : α) (N : ℕ) (edge : α) (i : ℕ) : Bool :=
  is_within_ang edge (teeth_sts p tooth_ang ang0 i) (teeth_sts p tooth_ang ang0 ((i + 1) % N))

/-- Model of `full_teeth = teeth_sts_in_sector_bm & teeth_ens_in_sector_bm &
integer_teeth` (lines 327, 332-333), where `teeth_ens_in_sector_bm` is the roll of
the fixed start bitmap and `integer_teeth` excludes the teeth containing a sector
edge. -/
def full_tooth_bm (p tooth_ang ang0 : α) (N : ℕ) (sec_st sec_en : α) (i : ℕ) : Bool :=
  tooth_st_bm p tooth_ang ang0 sec_st sec_en i
    && tooth_st_bm p tooth_ang ang0 sec_st sec_en ((i + 1) % N)
    && !(seg_edge_within p tooth_ang ang0 N sec_st i
          || seg_edge_within p tooth_ang ang0 N sec_en i)

/-- Model of `np.roll(full_teeth_ins, 1)`: move the last element to the front. -/
def roll1 (l : List ℕ) : List ℕ :=
  match l.getLast? with
  | none => []
  | some x => x :: l.dropLast

/-- Model of the index-alignment loop
`while (full_teeth_ins[0] - 1) % tooth_num != st_tooth_idx: np.roll(...)`
(lines 337-339); fuelled, `none` models the non-terminating case. -/
def rollUntil (N target : ℕ) : ℕ → List ℕ → Option (List ℕ)
  | 0, _ => none
  | fuel + 1, l =>
    match l.head? with
    | none => some l
    | some h =>
      if ((h : ℤ) - 1) % (N : ℤ) = (target : ℤ) then some l
      else rollUntil N target fuel (roll1 l)

/-- Result triple of `_sortout_teeth`. -/
structure SortoutResult where
  st_tooth_idx : ℕ
  full_teeth_ins : List ℕ
  en_tooth_idx : ℕ
deriving DecidableEq

/-- Model of `GearSector._sortout_teeth(sec_st, sec_en, rot_ang)` (lines 320-342),
taking the already-rotated angular position `ang0` of the reference tooth's first
point. `none` models the `IndexError` when no tooth contains a sector edge and the
non-termination of the alignment loop. -/
def sortout_teeth (p tooth_ang ang0 : α) (N : ℕ) (sec_st sec_en : α) :
    Option SortoutResult :=
  match (List.range N).find? (seg_edge_within p tooth_ang ang0 N sec_st),
      (List.range N).find? (seg_edge_within p tooth_ang ang0 N sec_en) with
  | some s, some e =>
    match rollUntil N s N
        ((List.range N).filter (full_tooth_bm p tooth_ang ang0 N sec_st sec_en)) with
    | some l => some ⟨s, l, e⟩
    | none => none
  | _, _ => none

end SortoutDefs

section SortoutAnalysis

variable {α : Type*} [LinearOrderedField α] [FloorRing α]

/-- Angular offset of tooth `i`'s start from the sector start, wrapped into `[0, p)`. -/
def toothDelta (p tooth_ang ang0 sec_st : α) (i : ℕ) : α :=
  pyRemainder (ang0 + tooth_ang * i - sec_st) p

theorem teeth_sts_nonneg {p : α} (hp : 0 < p) (tooth_ang ang0 : α) (i : ℕ) :
    0 ≤ teeth_sts p tooth_ang ang0 i :=
  pyRemainder_nonneg hp _

theorem teeth_sts_lt {p : α} (hp : 0 < p) (tooth_ang ang0 : α) (i : ℕ) :
    teeth_sts p tooth_ang ang0 i < p :=
  pyRemainder_lt hp _

theorem teeth_sts_modEq (p tooth_ang ang0 : α) (i : ℕ) :
    modEq p (teeth_sts p tooth_ang ang0 i) (ang0 + tooth_ang * i) :=
  pyRemainder_modEq _ _

theorem toothDelta_nonneg {p : α} (hp : 0 < p) (tooth_ang ang0 sec_st : α) (i : ℕ) :
    0 ≤ toothDelta p tooth_ang ang0 sec_st i :=
  pyRemainder_nonneg hp _

theorem toothDelta_lt {p : α} (hp : 0 < p) (tooth_ang ang0 sec_st : α) (i : ℕ) :
    toothDelta p tooth_ang ang0 sec_st i < p :=
  pyRemainder_lt hp _

theorem toothDelta_modEq (p tooth_ang ang0 sec_st : α) (i : ℕ) :
    modEq p (toothDelta p tooth_ang ang0 sec_st i) (ang0 + tooth_ang * i - sec_st) :=
  pyRemainder_modEq _ _

/-- The wrapped difference between a tooth start and the sector start is `toothDelta`. -/
theorem sts_sub_secst {p : α} (hp : 0 < p) (tooth_ang ang0 sec_st : α) (i : ℕ) :
    pyRemainder (teeth_sts p tooth_ang ang0 i - sec_st) p
      = toothDelta p tooth_ang ang0 sec_st i := by
  unfold toothDelta
  apply pyRemainder_eq_of_modEq (ne_of_gt hp)
  exact modEq_sub p _ _ _ _ (teeth_sts_modEq p tooth_ang ang0 i) (modEq_refl p sec_st)

/-- Injectivity of `toothDelta` on tooth indices below `N`. -/
theorem toothDelta_inj {p tooth_ang : α} (hτ : 0 < tooth_ang) {N : ℕ}
    (hpN : tooth_ang * N = p) (ang0 sec_st : α) {i j : ℕ} (hi : i < N) (hj : j < N)
    (h : toothDelta p tooth_ang ang0 sec_st i = toothDelta p tooth_ang ang0 sec_st j) :
    i = j := by
  have hp : 0 < p := by
    rw [← hpN]
    have : (0 : α) < N := by
      have : 0 < N := by omega
      exact_mod_cast this
    positivity
  have hc : modEq p (ang0 + tooth_ang * i - sec_st) (ang0 + tooth_ang * j - sec_st) := by
    rw [← pyRemainder_eq_iff_modEq hp]
    exact h
  obtain ⟨k, hk⟩ := hc
  have hk2 : tooth_ang * ((i : α) - (j : α)) = tooth_ang * ((k : α) * (N : α)) := by
    rw [← hpN] at hk
    ring_nf
    ring_nf at hk
    linarith
  have hk3 : (i : α) - (j : α) = (k : α) * (N : α) :=
    mul_left_cancel₀ (ne_of_gt hτ) hk2
  have hk5 : (i : ℤ) - (j : ℤ) = k * N := by
    have hk4 : (((i : ℤ) - (j : ℤ) : ℤ) : α) = ((k * (N : ℤ) : ℤ) : α) := by
      push_cast
      push_cast at hk3
      linarith
    exact_mod_cast hk4
  have hb1 : (i : ℤ) - (j : ℤ) < (N : ℤ) := by omega
  have hb2 : -(N : ℤ) < (i : ℤ) - (j : ℤ) := by omega
  rcases lt_trichotomy k 0 with hk0 | hk0 | hk0
  · have hle : k * (N : ℤ) ≤ -1 * (N : ℤ) :=
      mul_le_mul_of_nonneg_right (by omega) (by omega)
    exfalso
    linarith [hk5, hb2, hle]
  · rw [hk0] at hk5
    omega
  · have hge : 1 * (N : ℤ) ≤ k * (N : ℤ) :=
      mul_le_mul_of_nonneg_right (by omega) (by omega)
    exfalso
    linarith [hk5, hb1, hge]

end SortoutAnalysis

section SortoutAnalysis2

variable {α : Type*} [LinearOrderedField α] [FloorRing α]

theorem iwa_self (q st : α) : is_within_ang q st st = true := by
  simp [is_within_ang, lt_irrefl]
  exact le_or_lt st q

/-- Wrapped-difference characterization of the angular containment test on canonical
representatives. -/
theorem iwa_iff_wrap {p : α} (hp : 0 < p) {q st en : α} (hq0 : 0 ≤ q) (hq1 : q < p)
    (hst0 : 0 ≤ st) (hst1 : st < p) (hen0 : 0 ≤ en) (hen1 : en < p) (hne : st ≠ en) :
    is_within_ang q st en = true ↔ pyRemainder (q - st) p < pyRemainder (en - st) p := by
  have hwq : pyRemainder (q - st) p = if st ≤ q then q - st else q - st + p := by
    by_cases h : st ≤ q
    · rw [if_pos h]
      exact pyRemainder_eq_self hp (by linarith) (by linarith)
    · rw [if_neg h]
      push_neg at h
      exact pyRemainder_of_neg_range hp (by linarith) (by linarith)
  have hwe : pyRemainder (en - st) p = if st < en then en - st else en - st + p := by
    by_cases h : st < en
    · rw [if_pos h]
      exact pyRemainder_eq_self hp (by linarith) (by linarith)
    · rw [if_neg h]
      push_neg at h
      have hlt : en < st := lt_of_le_of_ne h (Ne.symm hne)
      exact pyRemainder_of_neg_range hp (by linarith) (by linarith)
  unfold is_within_ang
  by_cases hdir : st < en
  · rw [if_pos hdir, hwe, if_pos hdir, hwq]
    by_cases hq : st ≤ q
    · rw [if_pos hq]
      simp only [Bool.and_eq_true, decide_eq_true_eq]
      constructor
      · intro h
        linarith [h.2]
      · intro h
        exact ⟨hq, by linarith⟩
    · rw [if_neg hq]
      push_neg at hq
      simp only [Bool.and_eq_true, decide_eq_true_eq]
      constructor
      · intro h
        linarith [h.1]
      · intro h
        linarith
  · rw [if_neg hdir, hwe, if_neg hdir, hwq]
    have hlt : en < st := lt_of_le_of_ne (not_lt.mp hdir) (Ne.symm hne)
    by_cases hq : st ≤ q
    · rw [if_pos hq]
      simp only [Bool.or_eq_true, decide_eq_true_eq]
      constructor
      · intro _
        linarith
      · intro _
        left
        exact hq
    · rw [if_neg hq]
      push_neg at hq
      simp only [Bool.or_eq_true, decide_eq_true_eq]
      constructor
      · intro h
        rcases h with h | h
        · linarith
        · linarith
      · intro h
        right
        linarith

end SortoutAnalysis2

section SortoutAnalysis3

variable {α : Type*} [LinearOrderedField α] [FloorRing α]

theorem teeth_sts_eq_toothDelta_zero (p tooth_ang ang0 : α) (i : ℕ) :
    teeth_sts p tooth_ang ang0 i = toothDelta p tooth_ang ang0 0 i := by
  unfold teeth_sts toothDelta
  rw [sub_zero]

theorem teeth_sts_inj {p tooth_ang : α} (hτ : 0 < tooth_ang) {N : ℕ}
    (hpN : tooth_ang * N = p) (ang0 : α) {i j : ℕ} (hi : i < N) (hj : j < N)
    (h : teeth_sts p tooth_ang ang0 i = teeth_sts p tooth_ang ang0 j) : i = j := by
  rw [teeth_sts_eq_toothDelta_zero, teeth_sts_eq_toothDelta_zero] at h
  exact toothDelta_inj hτ hpN ang0 0 hi hj h

theorem teeth_sts_succ_modEq {p tooth_ang : α} {N : ℕ} (hpN : tooth_ang * N = p)
    (ang0 : α) {i : ℕ} (hi : i < N) :
    modEq p (teeth_sts p tooth_ang ang0 ((i + 1) % N)) (ang0 + tooth_ang * (i + 1)) := by
  by_cases hcase : i + 1 < N
  · rw [Nat.mod_eq_of_lt hcase]
    have := teeth_sts_modEq p tooth_ang ang0 (i + 1)
    rw [show ((i + 1 : ℕ) : α) = (i : α) + 1 by push_cast; ring] at this
    rw [show ang0 + tooth_ang * ((i : α) + 1) = ang0 + tooth_ang * ((i : ℕ) + 1 : α) by
      push_cast; ring]
    push_cast
    push_cast at this
    exact this
  · have hiN : i + 1 = N := by omega
    rw [hiN, Nat.mod_self]
    have h1 := teeth_sts_modEq p tooth_ang ang0 0
    have h2 : modEq p (ang0 + tooth_ang * (0 : ℕ)) (ang0 + tooth_ang * ((i : α) + 1)) := by
      refine ⟨-1, ?_⟩
      have : ((i : α) + 1) = (N : α) := by
        rw [← hiN]
        push_cast
        ring
      rw [this]
      push_cast
      linarith [hpN]
    have h3 := modEq_trans h1 h2
    exact h3

theorem toothDelta_succ {p tooth_ang : α} (hp : 0 < p) {N : ℕ} (hpN : tooth_ang * N = p)
    (ang0 sec_st : α) {i : ℕ} (hi : i < N) :
    toothDelta p tooth_ang ang0 sec_st ((i + 1) % N)
      = pyRemainder (toothDelta p tooth_ang ang0 sec_st i + tooth_ang) p := by
  unfold toothDelta
  apply pyRemainder_eq_of_modEq (ne_of_gt hp)
  have h1 : modEq p (ang0 + tooth_ang * ((i + 1) % N : ℕ) - sec_st)
      (ang0 + tooth_ang * ((i : α) + 1) - sec_st) := by
    have hs := teeth_sts_succ_modEq hpN ang0 hi
    have hs2 := teeth_sts_modEq p tooth_ang ang0 ((i + 1) % N)
    have := modEq_trans (modEq_symm hs2) hs
    have h' := modEq_sub p _ _ _ _ this (modEq_refl p sec_st)
    exact h'
  have h2 : modEq p (ang0 + tooth_ang * ((i : α) + 1) - sec_st)
      (pyRemainder (ang0 + tooth_ang * i - sec_st) p + tooth_ang) := by
    have := modEq_symm (pyRemainder_modEq (ang0 + tooth_ang * i - sec_st) p)
    have h' := modEq_add p _ _ _ _ this (modEq_refl p tooth_ang)
    obtain ⟨k, hk⟩ := h'
    exact ⟨k, by push_cast at hk ⊢; linarith⟩
  exact modEq_trans h1 h2

theorem seg_edge_st_iff {p tooth_ang : α} (hτ : 0 < tooth_ang) {N : ℕ}
    (hpN : tooth_ang * N = p) (hN : 2 ≤ N) (ang0 : α) {edge : α} (he0 : 0 ≤ edge)
    (he1 : edge < p) {i : ℕ} (hi : i < N) :
    seg_edge_within p tooth_ang ang0 N edge i = true
      ↔ (toothDelta p tooth_ang ang0 edge i = 0
          ∨ p - tooth_ang < toothDelta p tooth_ang ang0 edge i) := by
  have hp : 0 < p := by
    rw [← hpN]
    have h2 : (2 : α) ≤ (N : α) := by exact_mod_cast hN
    nlinarith
  have hτp : tooth_ang < p := by
    rw [← hpN]
    have h2 : (2 : α) ≤ (N : α) := by exact_mod_cast hN
    nlinarith
  have hi1 : (i + 1) % N < N := Nat.mod_lt _ (by omega)
  have hne : teeth_sts p tooth_ang ang0 i ≠ teeth_sts p tooth_ang ang0 ((i + 1) % N) := by
    intro h
    have heq := teeth_sts_inj hτ hpN ang0 hi hi1 h
    by_cases hcase : i + 1 < N
    · rw [Nat.mod_eq_of_lt hcase] at heq
      omega
    · have hiN : i + 1 = N := by omega
      rw [hiN, Nat.mod_self] at heq
      omega
  have hwrapen : pyRemainder (teeth_sts p tooth_ang ang0 ((i + 1) % N)
      - teeth_sts p tooth_ang ang0 i) p = tooth_ang := by
    have h1 := teeth_sts_succ_modEq hpN ang0 hi
    have h2 := teeth_sts_modEq p tooth_ang ang0 i
    have h3 := modEq_sub p _ _ _ _ h1 h2
    have h4 : modEq p (teeth_sts p tooth_ang ang0 ((i + 1) % N)
        - teeth_sts p tooth_ang ang0 i) tooth_ang := by
      obtain ⟨k, hk⟩ := h3
      refine ⟨k, ?_⟩
      push_cast at hk
      linarith
    rw [pyRemainder_eq_of_modEq (ne_of_gt hp) h4]
    exact pyRemainder_eq_self hp (le_of_lt hτ) hτp
  unfold seg_edge_within
  rw [iwa_iff_wrap hp he0 he1 (teeth_sts_nonneg hp _ _ _) (teeth_sts_lt hp _ _ _)
    (teeth_sts_nonneg hp _ _ _) (teeth_sts_lt hp _ _ _) hne]
  rw [hwrapen]
  have hΔ := sts_sub_secst hp tooth_ang ang0 edge i
  by_cases hΔ0 : toothDelta p tooth_ang ang0 edge i = 0
  · have hq : pyRemainder (edge - teeth_sts p tooth_ang ang0 i) p = 0 := by
      have hcong : modEq p (edge - teeth_sts p tooth_ang ang0 i)
          (-(teeth_sts p tooth_ang ang0 i - edge)) := ⟨0, by ring⟩
      rw [pyRemainder_eq_of_modEq (ne_of_gt hp) hcong]
      have h0 : modEq p (-(teeth_sts p tooth_ang ang0 i - edge)) (0 : α) := by
        have h1 : modEq p (teeth_sts p tooth_ang ang0 i - edge) (0 : α) := by
          have := pyRemainder_modEq (teeth_sts p tooth_ang ang0 i - edge) p
          rw [hΔ, hΔ0] at this
          obtain ⟨k, hk⟩ := modEq_symm this
          exact ⟨k, by linarith⟩
        obtain ⟨k, hk⟩ := h1
        exact ⟨-k, by push_cast; linarith⟩
      rw [pyRemainder_eq_of_modEq (ne_of_gt hp) h0]
      exact pyRemainder_eq_self hp (le_refl 0) hp
    rw [hq]
    constructor
    · intro _
      exact Or.inl hΔ0
    · intro _
      exact hτ
  · have hq : pyRemainder (edge - teeth_sts p tooth_ang ang0 i) p
        = p - toothDelta p tooth_ang ang0 edge i := by
      have hcong : modEq p (edge - teeth_sts p tooth_ang ang0 i)
          (-(teeth_sts p tooth_ang ang0 i - edge)) := ⟨0, by ring⟩
      rw [pyRemainder_eq_of_modEq (ne_of_gt hp) hcong]
      rw [pyRemainder_neg_of_ne_zero hp (by rw [hΔ]; exact hΔ0), hΔ]
    rw [hq]
    constructor
    · intro h
      right
      linarith
    · intro h
      rcases h with h | h
      · exact absurd h hΔ0
      · linarith
  done

end SortoutAnalysis3

section SortoutAnalysis4

variable {α : Type*} [LinearOrderedField α] [FloorRing α]

theorem seg_edge_unique {p tooth_ang : α} (hτ : 0 < tooth_ang) {N : ℕ}
    (hpN : tooth_ang * N = p) (hN : 2 ≤ N) (ang0 : α) {edge : α} (he0 : 0 ≤ edge)
    (he1 : edge < p) {i j : ℕ} (hi : i < N) (hj : j < N)
    (hwi : seg_edge_within p tooth_ang ang0 N edge i = true)
    (hwj : seg_edge_within p tooth_ang ang0 N edge j = true) : i = j := by
  have hp : 0 < p := by
    rw [← hpN]
    have h2 : (2 : α) ≤ (N : α) := by exact_mod_cast hN
    nlinarith
  have hτp : tooth_ang < p := by
    rw [← hpN]
    have h2 : (2 : α) ≤ (N : α) := by exact_mod_cast hN
    nlinarith
  rw [seg_edge_st_iff hτ hpN hN ang0 he0 he1 hi] at hwi
  rw [seg_edge_st_iff hτ hpN hN ang0 he0 he1 hj] at hwj
  set Di := toothDelta p tooth_ang ang0 edge i with hDi
  set Dj := toothDelta p tooth_ang ang0 edge j with hDj
  have hDi0 := toothDelta_nonneg hp tooth_ang ang0 edge i
  have hDi1 := toothDelta_lt hp tooth_ang ang0 edge i
  have hDj0 := toothDelta_nonneg hp tooth_ang ang0 edge j
  have hDj1 := toothDelta_lt hp tooth_ang ang0 edge j
  have hkey : ∃ k : ℤ, Di - Dj = tooth_ang * ((i : α) - (j : α)) + k * p := by
    have h1 := toothDelta_modEq p tooth_ang ang0 edge i
    have h2 := toothDelta_modEq p tooth_ang ang0 edge j
    obtain ⟨k, hk⟩ := modEq_sub p _ _ _ _ h1 h2
    exact ⟨k, by push_cast at hk ⊢; linarith⟩
  obtain ⟨k, hk⟩ := hkey
  have hz : tooth_ang * (((i : ℤ) - (j : ℤ) + k * N : ℤ) : α) = Di - Dj := by
    push_cast
    rw [hk, ← hpN]
    ring
  set z : ℤ := (i : ℤ) - (j : ℤ) + k * N with hzdef
  have hinj : Di = Dj → i = j := fun h => toothDelta_inj hτ hpN ang0 edge hi hj h
  rcases hwi with hwi | hwi
  · rcases hwj with hwj | hwj
    · exact hinj (by rw [hwi, hwj])
    · exfalso
      have hb : tooth_ang * ((z : ℤ) : α) < tooth_ang * (1 - (N : α))
          ∧ tooth_ang * (-(N : α)) < tooth_ang * ((z : ℤ) : α) := by
        constructor
        · rw [hz, hwi]
          have : tooth_ang * (1 - (N : α)) = tooth_ang - tooth_ang * N := by ring
          rw [this, hpN]
          linarith
        · rw [hz, hwi]
          have : tooth_ang * (-(N : α)) = -(tooth_ang * N) := by ring
          rw [this, hpN]
          linarith
      have hz1 : ((z : ℤ) : α) < 1 - (N : α) := lt_of_mul_lt_mul_left (hb.1) (le_of_lt hτ)
      have hz2 : -(N : α) < ((z : ℤ) : α) := lt_of_mul_lt_mul_left (hb.2) (le_of_lt hτ)
      have hzi1 : z < 1 - (N : ℤ) := by exact_mod_cast (by push_cast at hz1 ⊢; linarith : ((z : ℤ) : α) < ((1 - (N : ℤ) : ℤ) : α))
      have hzi2 : -(N : ℤ) < z := by exact_mod_cast (by push_cast at hz2 ⊢; linarith : ((-(N : ℤ) : ℤ) : α) < ((z : ℤ) : α))
      omega
  · rcases hwj with hwj | hwj
    · exfalso
      have hb : tooth_ang * (((N : α)) - 1) < tooth_ang * ((z : ℤ) : α)
          ∧ tooth_ang * ((z : ℤ) : α) < tooth_ang * (N : α) := by
        constructor
        · rw [hz, hwj]
          have : tooth_ang * ((N : α) - 1) = tooth_ang * N - tooth_ang := by ring
          rw [this, hpN]
          linarith
        · rw [hz, hwj]
          rw [hpN]
          linarith
      have hz1 : ((N : α)) - 1 < ((z : ℤ) : α) := lt_of_mul_lt_mul_left (hb.1) (le_of_lt hτ)
      have hz2 : ((z : ℤ) : α) < (N : α) := lt_of_mul_lt_mul_left (hb.2) (le_of_lt hτ)
      have hzi1 : (N : ℤ) - 1 < z := by exact_mod_cast (by push_cast at hz1 ⊢; linarith : (((N : ℤ) - 1 : ℤ) : α) < ((z : ℤ) : α))
      have hzi2 : z < (N : ℤ) := by exact_mod_cast (by push_cast at hz2 ⊢; linarith : ((z : ℤ) : α) < (((N : ℤ) : ℤ) : α))
      omega
    · have hb : tooth_ang * (-1 : α) < tooth_ang * ((z : ℤ) : α)
          ∧ tooth_ang * ((z : ℤ) : α) < tooth_ang * (1 : α) := by
        constructor
        · rw [hz]
          linarith
        · rw [hz]
          linarith
      have hz1 : (-1 : α) < ((z : ℤ) : α) := lt_of_mul_lt_mul_left (hb.1) (le_of_lt hτ)
      have hz2 : ((z : ℤ) : α) < (1 : α) := lt_of_mul_lt_mul_left (hb.2) (le_of_lt hτ)
      have hzi1 : (-1 : ℤ) < z := by exact_mod_cast (by push_cast at hz1 ⊢; linarith : (((-1 : ℤ) : ℤ) : α) < ((z : ℤ) : α))
      have hzi2 : z < (1 : ℤ) := by exact_mod_cast (by push_cast at hz2 ⊢; linarith : ((z : ℤ) : α) < (((1 : ℤ) : ℤ) : α))
      have hz0 : z = 0 := by omega
      have : Di = Dj := by
        have := hz
        rw [hz0] at this
        push_cast at this
        linarith
      exact hinj this

end SortoutAnalysis4

section SortoutAnalysis5

variable {α : Type*} [LinearOrderedField α] [FloorRing α]

theorem pyRemainder_self {p : α} (hp : 0 < p) : pyRemainder p p = 0 := by
  have h := pyRemainder_add_cancel (ne_of_gt hp) 0
  rw [zero_add] at h
  rw [h]
  exact pyRemainder_eq_self hp (le_refl 0) hp

set_option maxHeartbeats 1600000 in
theorem seg_edge_exists {p tooth_ang : α} (hτ : 0 < tooth_ang) {N : ℕ}
    (hpN : tooth_ang * N = p) (hN : 2 ≤ N) (ang0 : α) {edge : α} (he0 : 0 ≤ edge)
    (he1 : edge < p) :
    ∃ i, i < N ∧ seg_edge_within p tooth_ang ang0 N edge i = true := by
  have hp : 0 < p := by
    rw [← hpN]
    have h2 : (2 : α) ≤ (N : α) := by exact_mod_cast hN
    nlinarith
  have hτp : tooth_ang < p := by
    rw [← hpN]
    have h2 : (2 : α) ≤ (N : α) := by exact_mod_cast hN
    nlinarith
  obtain ⟨c, hc⟩ : ∃ c : α, c = toothDelta p tooth_ang ang0 edge 0 := ⟨_, rfl⟩
  have hc0 : 0 ≤ c := hc ▸ toothDelta_nonneg hp tooth_ang ang0 edge 0
  have hc1 : c < p := hc ▸ toothDelta_lt hp tooth_ang ang0 edge 0
  have hdelta_val : ∀ i : ℕ, 0 ≤ c + tooth_ang * i → c + tooth_ang * i < p →
      toothDelta p tooth_ang ang0 edge i = c + tooth_ang * i := by
    intro i hlo hhi
    have hcong : modEq p (ang0 + tooth_ang * i - edge) (c + tooth_ang * i) := by
      have h1 : modEq p (ang0 + tooth_ang * (0 : ℕ) - edge) c := by
        rw [hc]
        exact modEq_symm (toothDelta_modEq p tooth_ang ang0 edge 0)
      have h2 := modEq_add p _ _ _ _ h1 (modEq_refl p (tooth_ang * i))
      obtain ⟨k, hk⟩ := h2
      refine ⟨k, ?_⟩
      push_cast at hk ⊢
      linarith
    unfold toothDelta
    rw [pyRemainder_eq_of_modEq (ne_of_gt hp) hcong]
    exact pyRemainder_eq_self hp hlo hhi
  by_cases hczero : c = 0
  · refine ⟨0, by omega, ?_⟩
    rw [seg_edge_st_iff hτ hpN hN ang0 he0 he1 (by omega : 0 < N)]
    left
    rw [← hc]
    exact hczero
  · have hcpos : 0 < c := lt_of_le_of_ne hc0 (Ne.symm hczero)
    obtain ⟨m, hm⟩ : ∃ m : ℤ, m = ⌈(p - c) / tooth_ang⌉ := ⟨_, rfl⟩
    have hfrac_pos : 0 < (p - c) / tooth_ang := div_pos (by linarith) hτ
    have hm1 : 1 ≤ m := by
      rw [hm]
      exact Int.ceil_pos.mpr hfrac_pos
    have hm2 : m ≤ N := by
      rw [hm]
      apply Int.ceil_le.mpr
      rw [div_le_iff₀ hτ]
      push_cast
      linarith [hcpos, hpN]
    have hmle : (p - c) / tooth_ang ≤ ((m : ℤ) : α) := by
      rw [hm]
      exact Int.le_ceil _
    have hmlt : ((m : ℤ) : α) < (p - c) / tooth_ang + 1 := by
      rw [hm]
      exact Int.ceil_lt_add_one _
    obtain ⟨i0, hi0⟩ : ∃ i0 : ℕ, (i0 : ℤ) = m - 1 := ⟨(m - 1).toNat, Int.toNat_of_nonneg (by omega)⟩
    have hi0cast : ((i0 : ℕ) : α) = ((m : ℤ) : α) - 1 := by
      have : (((i0 : ℤ) : ℤ) : α) = ((m - 1 : ℤ) : α) := by exact_mod_cast congrArg (fun z : ℤ => (z : α)) hi0
      push_cast at this ⊢
      linarith
    have hi0N : i0 < N := by omega
    have hval_lo : p - tooth_ang ≤ c + tooth_ang * i0 := by
      have h2 : (p - c) / tooth_ang * tooth_ang ≤ ((m : ℤ) : α) * tooth_ang :=
        mul_le_mul_of_nonneg_right hmle (le_of_lt hτ)
      rw [div_mul_cancel₀ _ (ne_of_gt hτ)] at h2
      rw [hi0cast]
      linarith [h2]
    have hval_hi : c + tooth_ang * i0 < p := by
      have h2 : ((m : ℤ) : α) * tooth_ang < ((p - c) / tooth_ang + 1) * tooth_ang :=
        mul_lt_mul_of_pos_right hmlt hτ
      rw [add_mul, div_mul_cancel₀ _ (ne_of_gt hτ)] at h2
      rw [hi0cast]
      linarith [h2]
    have hge0 : (0 : α) ≤ c + tooth_ang * i0 := by linarith [hval_lo, hτp]
    have hΔi0 : toothDelta p tooth_ang ang0 edge i0 = c + tooth_ang * i0 :=
      hdelta_val i0 hge0 hval_hi
    rcases lt_or_eq_of_le hval_lo with hstrict | heq
    · refine ⟨i0, hi0N, ?_⟩
      rw [seg_edge_st_iff hτ hpN hN ang0 he0 he1 hi0N]
      right
      rw [hΔi0]
      exact hstrict
    · by_cases hnext : i0 + 1 < N
      · refine ⟨i0 + 1, hnext, ?_⟩
        rw [seg_edge_st_iff hτ hpN hN ang0 he0 he1 hnext]
        left
        have hcong : modEq p (ang0 + tooth_ang * (i0 + 1 : ℕ) - edge) (0 : α) := by
          have h1 : modEq p (ang0 + tooth_ang * (0 : ℕ) - edge) c := by
            rw [hc]
            exact modEq_symm (toothDelta_modEq p tooth_ang ang0 edge 0)
          have h2 := modEq_add p _ _ _ _ h1
            (modEq_refl p (tooth_ang * ((i0 : α) + 1)))
          obtain ⟨k, hk⟩ := h2
          refine ⟨k + 1, ?_⟩
          have hsum : c + tooth_ang * ((i0 : α) + 1) = p := by linarith [heq]
          push_cast at hk ⊢
          linarith [hk, hsum]
        unfold toothDelta
        rw [pyRemainder_eq_of_modEq (ne_of_gt hp) hcong]
        exact pyRemainder_eq_self hp (le_refl 0) hp
      · exfalso
        have hi0N1 : i0 + 1 = N := by omega
        have hsum : c + tooth_ang * ((i0 : α) + 1) = p := by linarith [heq]
        have hcast : ((i0 : α) + 1) = (N : α) := by
          rw [← hi0N1]
          push_cast
          ring
        rw [hcast, ← hpN] at hsum
        have : c = 0 := by linarith
        exact hczero this

end SortoutAnalysis5

section SortoutAnalysis6

variable {α : Type*} [LinearOrderedField α] [FloorRing α]

/-- With a proper sector, tooth `i`'s start lies in the sector (including the
`teeth_sts == sec_en` fix) iff its wrapped offset from the sector start is at most
the wrapped sector length. -/
theorem tooth_st_bm_iff {p : α} (hp : 0 < p) (tooth_ang ang0 : α) {sec_st sec_en : α}
    (hst0 : 0 ≤ sec_st) (hst1 : sec_st < p) (hen0 : 0 ≤ sec_en) (hen1 : sec_en < p)
    (hne : sec_st ≠ sec_en) (i : ℕ) :
    tooth_st_bm p tooth_ang ang0 sec_st sec_en i = true
      ↔ toothDelta p tooth_ang ang0 sec_st i ≤ pyRemainder (sec_en - sec_st) p := by
  unfold tooth_st_bm
  rw [Bool.or_eq_true, decide_eq_true_eq]
  rw [iwa_iff_wrap hp (teeth_sts_nonneg hp tooth_ang ang0 i) (teeth_sts_lt hp tooth_ang ang0 i)
    hst0 hst1 hen0 hen1 hne]
  rw [sts_sub_secst hp]
  constructor
  · rintro (h | h)
    · exact le_of_lt h
    · refine le_of_eq ?_
      rw [← sts_sub_secst hp tooth_ang ang0 sec_st i, h]
  · intro h
    rcases lt_or_eq_of_le h with h' | h'
    · exact Or.inl h'
    · right
      have h1 : pyRemainder (teeth_sts p tooth_ang ang0 i - sec_st) p
          = pyRemainder (sec_en - sec_st) p := by
        rw [sts_sub_secst hp, h']
      obtain ⟨k, hk⟩ := (pyRemainder_eq_iff_modEq hp _ _).mp h1
      exact eq_of_modEq_of_range hp (teeth_sts_nonneg hp tooth_ang ang0 i)
        (teeth_sts_lt hp tooth_ang ang0 i) hen0 hen1 ⟨k, by linarith⟩

/-- When the sector start and end coincide the start bitmap is identically true. -/
theorem tooth_st_bm_of_eq (p tooth_ang ang0 : α) (sec : α) (i : ℕ) :
    tooth_st_bm p tooth_ang ang0 sec sec i = true := by
  unfold tooth_st_bm
  rw [Bool.or_eq_true]
  exact Or.inl (iwa_self _ _)

/-- The wrapped offset of a tooth start from the sector end, expressed through its
offset from the sector start and the wrapped sector length. -/
theorem toothDelta_en_eq {p : α} (hp : 0 < p) (tooth_ang ang0 sec_st sec_en : α) (i : ℕ) :
    toothDelta p tooth_ang ang0 sec_en i
      = pyRemainder (toothDelta p tooth_ang ang0 sec_st i
          - pyRemainder (sec_en - sec_st) p) p := by
  unfold toothDelta
  apply pyRemainder_eq_of_modEq (ne_of_gt hp)
  obtain ⟨k1, hk1⟩ := pyRemainder_sub_int (ang0 + tooth_ang * i - sec_st) p
  obtain ⟨k2, hk2⟩ := pyRemainder_sub_int (sec_en - sec_st) p
  exact ⟨k1 - k2, by push_cast; linarith⟩

/-- The wrapped offset of the tooth following the clipped start tooth: the two
exact cases coming from the edge condition. -/
theorem delta_next_cases {p tooth_ang : α} (hτ : 0 < tooth_ang) {N : ℕ}
    (hpN : tooth_ang * N = p) (hN : 2 ≤ N) (ang0 : α) {sec_st : α} (hst0 : 0 ≤ sec_st)
    (hst1 : sec_st < p) {s : ℕ} (hs : s < N)
    (hedge : seg_edge_within p tooth_ang ang0 N sec_st s = true) :
    (toothDelta p tooth_ang ang0 sec_st s = 0
      ∧ toothDelta p tooth_ang ang0 sec_st ((s + 1) % N) = tooth_ang)
    ∨ (p - tooth_ang < toothDelta p tooth_ang ang0 sec_st s
      ∧ toothDelta p tooth_ang ang0 sec_st ((s + 1) % N)
          = toothDelta p tooth_ang ang0 sec_st s + tooth_ang - p) := by
  have hp : 0 < p := by
    rw [← hpN]
    have h2 : (2 : α) ≤ (N : α) := by exact_mod_cast hN
    nlinarith
  have hτp : tooth_ang < p := by
    rw [← hpN]
    have h2 : (2 : α) ≤ (N : α) := by exact_mod_cast hN
    nlinarith
  rw [seg_edge_st_iff hτ hpN hN ang0 hst0 hst1 hs] at hedge
  have hsucc := toothDelta_succ hp hpN ang0 sec_st hs
  rcases hedge with h0 | h0
  · left
    refine ⟨h0, ?_⟩
    rw [hsucc, h0, zero_add]
    exact pyRemainder_eq_self hp (le_of_lt hτ) hτp
  · right
    have hlt := toothDelta_lt hp tooth_ang ang0 sec_st s
    refine ⟨h0, ?_⟩
    rw [hsucc]
    have hshift : pyRemainder (toothDelta p tooth_ang ang0 sec_st s + tooth_ang) p
        = pyRemainder (toothDelta p tooth_ang ang0 sec_st s + tooth_ang - p) p := by
      apply pyRemainder_eq_of_modEq (ne_of_gt hp)
      exact ⟨1, by ring⟩
    rw [hshift]
    exact pyRemainder_eq_self hp (by linarith) (by linarith)

/-- The wrapped offset of the tooth following the clipped start tooth lies in
`(0, tooth_ang]`. -/
theorem delta_next_bounds {p tooth_ang : α} (hτ : 0 < tooth_ang) {N : ℕ}
    (hpN : tooth_ang * N = p) (hN : 2 ≤ N) (ang0 : α) {sec_st : α} (hst0 : 0 ≤ sec_st)
    (hst1 : sec_st < p) {s : ℕ} (hs : s < N)
    (hedge : seg_edge_within p tooth_ang ang0 N sec_st s = true) :
    0 < toothDelta p tooth_ang ang0 sec_st ((s + 1) % N)
      ∧ toothDelta p tooth_ang ang0 sec_st ((s + 1) % N) ≤ tooth_ang := by
  have hp : 0 < p := by
    rw [← hpN]
    have h2 : (2 : α) ≤ (N : α) := by exact_mod_cast hN
    nlinarith
  rcases delta_next_cases hτ hpN hN ang0 hst0 hst1 hs hedge with ⟨h1, h2⟩ | ⟨h1, h2⟩
  · rw [h2]
    exact ⟨hτ, le_refl _⟩
  · have hlt := toothDelta_lt hp tooth_ang ang0 sec_st s
    rw [h2]
    exact ⟨by linarith, by linarith⟩

/-- Stepping a rotated tooth index by one inside the modulus. -/
theorem mod_succ_step {N : ℕ} (hN : 2 ≤ N) (a : ℕ) : (a % N + 1) % N = (a + 1) % N := by
  conv_rhs => rw [Nat.add_mod]
  rw [Nat.mod_eq_of_lt (show 1 < N by omega)]

/-- The map from offsets after the start tooth to tooth indices is injective. -/
theorem idx_map_inj {N s j j' : ℕ} (hj : j < N) (hj' : j' < N)
    (h : (s + 1 + j) % N = (s + 1 + j') % N) : j = j' := by
  have h1 : Nat.ModEq N (s + 1 + j) (s + 1 + j') := h
  have h2 : Nat.ModEq N j j' := Nat.ModEq.add_left_cancel' (s + 1) h1
  have h3 : j % N = j' % N := h2
  rwa [Nat.mod_eq_of_lt hj, Nat.mod_eq_of_lt hj'] at h3

/-- Every tooth other than the start tooth is reached from it by an offset of at
most `N - 2`. -/
theorem idx_cover {N s i : ℕ} (hs : s < N) (hi : i < N) (hne : i ≠ s) :
    ∃ j, j ≤ N - 2 ∧ (s + 1 + j) % N = i := by
  by_cases hlt : s < i
  · refine ⟨i - s - 1, by omega, ?_⟩
    rw [show s + 1 + (i - s - 1) = i from by omega]
    exact Nat.mod_eq_of_lt hi
  · refine ⟨i + N - s - 1, by omega, ?_⟩
    rw [show s + 1 + (i + N - s - 1) = N + i from by omega]
    rw [Nat.add_mod_left]
    exact Nat.mod_eq_of_lt hi

/-- Offset `N - 1` from the start tooth wraps back to the start tooth. -/
theorem idx_last {N s : ℕ} (hs : s < N) : (s + 1 + (N - 1)) % N = s := by
  rw [show s + 1 + (N - 1) = N + s from by omega]
  rw [Nat.add_mod_left]
  exact Nat.mod_eq_of_lt hs

/-- Unfolded value of a rotated tooth index. -/
theorem idx_split {N s j : ℕ} (hs : s < N) (hj : j < N) :
    (s + 1 + j) % N = if s + 1 + j < N then s + 1 + j else s + 1 + j - N := by
  by_cases h : s + 1 + j < N
  · rw [if_pos h]
    exact Nat.mod_eq_of_lt h
  · rw [if_neg h]
    rw [Nat.mod_eq_sub_mod (by omega)]
    exact Nat.mod_eq_of_lt (by omega)

/-- The clipped start tooth is never a full tooth. -/
theorem full_tooth_bm_st_false {p tooth_ang ang0 : α} {N : ℕ} {sec_st sec_en : α} {s : ℕ}
    (hedge : seg_edge_within p tooth_ang ang0 N sec_st s = true) :
    full_tooth_bm p tooth_ang ang0 N sec_st sec_en s = false := by
  unfold full_tooth_bm
  rw [hedge]
  simp

/-- The wrapped offsets of the teeth after the clipped start tooth increase in
steps of `tooth_ang` without wrapping around. -/
theorem delta_chain {p tooth_ang : α} (hτ : 0 < tooth_ang) {N : ℕ}
    (hpN : tooth_ang * N = p) (hN : 2 ≤ N) (ang0 : α) {sec_st : α} (hst0 : 0 ≤ sec_st)
    (hst1 : sec_st < p) {s : ℕ} (hs : s < N)
    (hedge : seg_edge_within p tooth_ang ang0 N sec_st s = true) :
    ∀ j, j ≤ N - 2 → toothDelta p tooth_ang ang0 sec_st ((s + 1 + j) % N)
      = toothDelta p tooth_ang ang0 sec_st ((s + 1) % N) + tooth_ang * j := by
  have hp : 0 < p := by
    rw [← hpN]
    have h2 : (2 : α) ≤ (N : α) := by exact_mod_cast hN
    nlinarith
  obtain ⟨hδ0, hδ1⟩ := delta_next_bounds hτ hpN hN ang0 hst0 hst1 hs hedge
  intro j
  induction j with
  | zero =>
    intro _
    norm_num
  | succ j ih =>
    intro hj
    have hrec := ih (by omega)
    have hidx : (s + 1 + (j + 1)) % N = ((s + 1 + j) % N + 1) % N := by
      rw [mod_succ_step hN (s + 1 + j), ← Nat.add_assoc]
    rw [hidx]
    rw [toothDelta_succ hp hpN ang0 sec_st (Nat.mod_lt _ (show 0 < N by omega))]
    rw [hrec]
    have hjN : (j : α) + 3 ≤ (N : α) := by
      exact_mod_cast (show j + 3 ≤ N by omega)
    have hmul : tooth_ang * ((j : α) + 2) ≤ tooth_ang * ((N : α) - 1) :=
      mul_le_mul_of_nonneg_left (by linarith) (le_of_lt hτ)
    have hmulN : tooth_ang * ((N : α) - 1) = p - tooth_ang := by
      rw [mul_sub, mul_one, hpN]
    have hexp : tooth_ang * ((j : α) + 2) = tooth_ang * (j : α) + tooth_ang * 2 := by ring
    have hτj : 0 ≤ tooth_ang * (j : α) := by positivity
    have hres : pyRemainder (toothDelta p tooth_ang ang0 sec_st ((s + 1) % N)
        + tooth_ang * (j : α) + tooth_ang) p
        = toothDelta p tooth_ang ang0 sec_st ((s + 1) % N)
            + tooth_ang * (j : α) + tooth_ang := by
      apply pyRemainder_eq_self hp
      · linarith
      · linarith
    rw [hres]
    push_cast
    ring

/-- No tooth reached by an offset of at most `N - 2` from the start tooth contains
the sector start edge. -/
theorem seg_edge_st_mid_false {p tooth_ang : α} (hτ : 0 < tooth_ang) {N : ℕ}
    (hpN : tooth_ang * N = p) (hN : 2 ≤ N) (ang0 : α) {sec_st : α} (hst0 : 0 ≤ sec_st)
    (hst1 : sec_st < p) {s : ℕ} (hs : s < N)
    (hedge : seg_edge_within p tooth_ang ang0 N sec_st s = true)
    {j : ℕ} (hj : j ≤ N - 2) :
    seg_edge_within p tooth_ang ang0 N sec_st ((s + 1 + j) % N) = false := by
  obtain ⟨hδ0, hδ1⟩ := delta_next_bounds hτ hpN hN ang0 hst0 hst1 hs hedge
  have hval := delta_chain hτ hpN hN ang0 hst0 hst1 hs hedge j hj
  rw [Bool.eq_false_iff]
  intro htrue
  rw [seg_edge_st_iff hτ hpN hN ang0 hst0 hst1 (Nat.mod_lt _ (show 0 < N by omega))] at htrue
  rw [hval] at htrue
  have hjN : (j : α) + 2 ≤ (N : α) := by
    exact_mod_cast (show j + 2 ≤ N by omega)
  have hmul : tooth_ang * ((j : α) + 1) ≤ tooth_ang * ((N : α) - 1) :=
    mul_le_mul_of_nonneg_left (by linarith) (le_of_lt hτ)
  have hmulN : tooth_ang * ((N : α) - 1) = p - tooth_ang := by
    rw [mul_sub, mul_one, hpN]
  have hexp : tooth_ang * ((j : α) + 1) = tooth_ang * (j : α) + tooth_ang := by ring
  have hτj : 0 ≤ tooth_ang * (j : α) := by positivity
  rcases htrue with h0 | h0
  · linarith
  · linarith

end SortoutAnalysis6

section SortoutAnalysis7

variable {α : Type*} [LinearOrderedField α] [FloorRing α]

/-- Block characterization of the full-tooth bitmap for a proper sector: the tooth
at offset `j` after the clipped start tooth is full iff the wrapped sector length
covers its whole span. -/
theorem full_tooth_bm_iff_of_ne {p tooth_ang : α} (hτ : 0 < tooth_ang) {N : ℕ}
    (hpN : tooth_ang * N = p) (hN : 2 ≤ N) (ang0 : α) {sec_st sec_en : α}
    (hst0 : 0 ≤ sec_st) (hst1 : sec_st < p) (hen0 : 0 ≤ sec_en) (hen1 : sec_en < p)
    (hne : sec_st ≠ sec_en) {s : ℕ} (hs : s < N)
    (hedge : seg_edge_within p tooth_ang ang0 N sec_st s = true)
    {j : ℕ} (hj : j ≤ N - 2) :
    (full_tooth_bm p tooth_ang ang0 N sec_st sec_en ((s + 1 + j) % N) = true)
      ↔ toothDelta p tooth_ang ang0 sec_st ((s + 1) % N) + tooth_ang * ((j : α) + 1)
          ≤ pyRemainder (sec_en - sec_st) p := by
  have hp : 0 < p := by
    rw [← hpN]
    have h2 : (2 : α) ≤ (N : α) := by exact_mod_cast hN
    nlinarith
  have hτp : tooth_ang < p := by
    rw [← hpN]
    have h2 : (2 : α) ≤ (N : α) := by exact_mod_cast hN
    nlinarith
  have hij : (s + 1 + j) % N < N := Nat.mod_lt _ (show 0 < N by omega)
  have hij1 : ((s + 1 + j) % N + 1) % N = (s + 1 + (j + 1)) % N := by
    rw [mod_succ_step hN (s + 1 + j), ← Nat.add_assoc]
  have hchainj := delta_chain hτ hpN hN ang0 hst0 hst1 hs hedge j hj
  obtain ⟨hδ0, hδ1⟩ := delta_next_bounds hτ hpN hN ang0 hst0 hst1 hs hedge
  have hL0 : (0 : α) ≤ pyRemainder (sec_en - sec_st) p := pyRemainder_nonneg hp _
  have hL1 : pyRemainder (sec_en - sec_st) p < p := pyRemainder_lt hp _
  have hstbm : tooth_st_bm p tooth_ang ang0 sec_st sec_en ((s + 1 + j) % N) = true
      ↔ toothDelta p tooth_ang ang0 sec_st ((s + 1) % N) + tooth_ang * (j : α)
          ≤ pyRemainder (sec_en - sec_st) p := by
    rw [tooth_st_bm_iff hp tooth_ang ang0 hst0 hst1 hen0 hen1 hne, hchainj]
  have hedgest := seg_edge_st_mid_false hτ hpN hN ang0 hst0 hst1 hs hedge hj
  have hedgeen : seg_edge_within p tooth_ang ang0 N sec_en ((s + 1 + j) % N) = true
      ↔ (pyRemainder (toothDelta p tooth_ang ang0 sec_st ((s + 1) % N)
            + tooth_ang * (j : α) - pyRemainder (sec_en - sec_st) p) p = 0
          ∨ p - tooth_ang < pyRemainder (toothDelta p tooth_ang ang0 sec_st ((s + 1) % N)
              + tooth_ang * (j : α) - pyRemainder (sec_en - sec_st) p) p) := by
    rw [seg_edge_st_iff hτ hpN hN ang0 hen0 hen1 hij]
    rw [toothDelta_en_eq hp tooth_ang ang0 sec_st sec_en, hchainj]
  have hτj : 0 ≤ tooth_ang * (j : α) := by positivity
  have hexp : tooth_ang * ((j : α) + 1) = tooth_ang * (j : α) + tooth_ang := by ring
  unfold full_tooth_bm
  rw [hedgest, hij1]
  rw [Bool.and_eq_true, Bool.and_eq_true, Bool.false_or, Bool.not_eq_true']
  rw [hstbm, Bool.eq_false_iff]
  simp only [ne_eq]
  rw [hedgeen]
  rcases Nat.lt_or_ge j (N - 2) with hjlt | hjge
  · have hstbm2 : tooth_st_bm p tooth_ang ang0 sec_st sec_en ((s + 1 + (j + 1)) % N) = true
        ↔ toothDelta p tooth_ang ang0 sec_st ((s + 1) % N) + tooth_ang * ((j + 1 : ℕ) : α)
            ≤ pyRemainder (sec_en - sec_st) p := by
      rw [tooth_st_bm_iff hp tooth_ang ang0 hst0 hst1 hen0 hen1 hne,
        delta_chain hτ hpN hN ang0 hst0 hst1 hs hedge (j + 1) (by omega)]
    rw [hstbm2]
    constructor
    · rintro ⟨⟨h1, h2⟩, h3⟩
      push_cast at h2
      linarith
    · intro hcov
      refine ⟨⟨by linarith, by push_cast; linarith⟩, ?_⟩
      have hwrap : pyRemainder (toothDelta p tooth_ang ang0 sec_st ((s + 1) % N)
          + tooth_ang * (j : α) - pyRemainder (sec_en - sec_st) p) p
          = toothDelta p tooth_ang ang0 sec_st ((s + 1) % N)
              + tooth_ang * (j : α) - pyRemainder (sec_en - sec_st) p + p := by
        apply pyRemainder_of_neg_range hp
        · linarith
        · linarith
      rw [hwrap]
      rintro (h | h)
      · linarith
      · linarith
  · have hjeq : j = N - 2 := by omega
    have hidxN : (s + 1 + (j + 1)) % N = s := by
      rw [show j + 1 = N - 1 from by omega]
      exact idx_last hs
    rw [hidxN]
    rw [tooth_st_bm_iff hp tooth_ang ang0 hst0 hst1 hen0 hen1 hne s]
    have hΔs0 := toothDelta_nonneg hp tooth_ang ang0 sec_st s
    have hΔs1 := toothDelta_lt hp tooth_ang ang0 sec_st s
    have hτj1 : tooth_ang * ((j : α) + 1) = p - tooth_ang := by
      have h1 : (j : α) + 2 = (N : α) := by
        exact_mod_cast (show j + 2 = N by omega)
      have h2 : (j : α) + 1 = (N : α) - 1 := by linarith
      rw [h2, mul_sub, mul_one, hpN]
    rcases delta_next_cases hτ hpN hN ang0 hst0 hst1 hs hedge with ⟨hΔs, hδval⟩ | ⟨hΔlo, hδval⟩
    · have hval : toothDelta p tooth_ang ang0 sec_st ((s + 1) % N) + tooth_ang * (j : α)
          = p - tooth_ang := by
        rw [hδval]
        linarith
      constructor
      · rintro ⟨⟨h1, h2⟩, h3⟩
        exfalso
        have hpL : p - tooth_ang ≤ pyRemainder (sec_en - sec_st) p := by
          rw [← hval]
          exact h1
        rcases eq_or_lt_of_le hpL with hLeq | hLlt
        · apply h3
          left
          rw [hval, ← hLeq, sub_self]
          exact pyRemainder_eq_self hp (le_refl 0) hp
        · apply h3
          right
          rw [hval]
          rw [pyRemainder_of_neg_range hp (by linarith) (by linarith)]
          linarith
      · intro hcov
        exfalso
        rw [hδval] at hcov
        linarith
    · have hkey : toothDelta p tooth_ang ang0 sec_st ((s + 1) % N)
          + tooth_ang * ((j : α) + 1) = toothDelta p tooth_ang ang0 sec_st s := by
        rw [hδval]
        linarith
      constructor
      · rintro ⟨⟨h1, h2⟩, h3⟩
        rw [hkey]
        exact h2
      · intro hcov
        refine ⟨⟨by linarith, ?_⟩, ?_⟩
        · rw [← hkey]
          exact hcov
        · rw [pyRemainder_of_neg_range hp (by linarith) (by linarith)]
          rintro (h | h)
          · linarith
          · linarith

/-- For a degenerate (whole-circle) sector every tooth except the clipped start
tooth is full. -/
theorem full_tooth_bm_of_eq {p tooth_ang : α} (hτ : 0 < tooth_ang) {N : ℕ}
    (hpN : tooth_ang * N = p) (hN : 2 ≤ N) (ang0 : α) {sec : α} (hst0 : 0 ≤ sec)
    (hst1 : sec < p) {s : ℕ} (hs : s < N)
    (hedge : seg_edge_within p tooth_ang ang0 N sec s = true)
    {j : ℕ} (hj : j ≤ N - 2) :
    full_tooth_bm p tooth_ang ang0 N sec sec ((s + 1 + j) % N) = true := by
  have hedgest := seg_edge_st_mid_false hτ hpN hN ang0 hst0 hst1 hs hedge hj
  unfold full_tooth_bm
  rw [tooth_st_bm_of_eq, tooth_st_bm_of_eq, hedgest]
  simp

/-- A decidable predicate monotone downward on an initial segment of the naturals
is an initial segment: some threshold separates where it holds from where it fails. -/
theorem exists_threshold {C : ℕ → Prop} [DecidablePred C] {n : ℕ}
    (hmono : ∀ j j', j' ≤ j → j ≤ n → C j → C j') :
    ∃ m, m ≤ n + 1 ∧ ∀ j, j ≤ n → (C j ↔ j < m) := by
  by_cases hall : ∀ j, j ≤ n → C j
  · refine ⟨n + 1, le_refl _, fun j hj => ⟨fun _ => by omega, fun _ => hall j hj⟩⟩
  · push_neg at hall
    obtain ⟨j0, hj0n, hj0⟩ := hall
    have hex : ∃ k, ¬ C k := ⟨j0, hj0⟩
    refine ⟨Nat.find hex, ?_, ?_⟩
    · have h1 := Nat.find_min' hex hj0
      omega
    · intro j hj
      constructor
      · intro hC
        by_contra hge
        push_neg at hge
        exact Nat.find_spec hex (hmono j (Nat.find hex) hge hj hC)
      · intro hlt
        exact not_not.mp (Nat.find_min hex hlt)

/-- Membership in the filtered full-teeth list, through the block threshold. -/
theorem mem_filter_full_iff {p tooth_ang : α} {ang0 sec_st sec_en : α} {N s m : ℕ}
    (hN : 2 ≤ N) (hs : s < N) (hmN : m ≤ N - 1)
    (hm : ∀ j, j ≤ N - 2 →
      (full_tooth_bm p tooth_ang ang0 N sec_st sec_en ((s + 1 + j) % N) = true ↔ j < m))
    (hsfull : full_tooth_bm p tooth_ang ang0 N sec_st sec_en s = false) (x : ℕ) :
    x ∈ (List.range N).filter (full_tooth_bm p tooth_ang ang0 N sec_st sec_en)
      ↔ ∃ j, j < m ∧ (s + 1 + j) % N = x := by
  rw [List.mem_filter, List.mem_range]
  constructor
  · rintro ⟨hx, hfull⟩
    have hxs : x ≠ s := by
      rintro rfl
      rw [hsfull] at hfull
      exact Bool.false_ne_true hfull
    obtain ⟨j, hj, hjx⟩ := idx_cover hs hx hxs
    refine ⟨j, ?_, hjx⟩
    apply (hm j hj).mp
    rw [hjx]
    exact hfull
  · rintro ⟨j, hjm, rfl⟩
    exact ⟨Nat.mod_lt _ (by omega), (hm j (by omega)).mpr hjm⟩

end SortoutAnalysis7

section BlockList

/-- The head of a nonempty list is its entry at index `0`. -/
theorem head_eq_get {β : Type*} (l : List β) (h : 0 < l.length) :
    l.head? = some (l.get ⟨0, h⟩) := by
  cases l with
  | nil => simp at h
  | cons a t => rfl

/-- The optional last element of a nonempty list is its entry at the top index. -/
theorem getLast_eq_get {β : Type*} (l : List β) (h : 0 < l.length) :
    l.getLast? = some (l.get ⟨l.length - 1, by omega⟩) := by
  have hne : l ≠ [] := by
    intro heq
    rw [heq] at h
    simp at h
  rw [List.getLast?_eq_getLast _ hne, List.getLast_eq_getElem, List.get_eq_getElem]

/-- The head of a rotation. -/
theorem head_rotate {β : Type*} (l : List β) (n : ℕ) (h : n < l.length) :
    (l.rotate n).head? = some (l.get ⟨n, h⟩) := by
  rw [List.head?_rotate h, List.getElem?_eq_getElem h, List.get_eq_getElem]

/-- The first entry of a strictly sorted list is its minimum. -/
theorem sorted_get_le {l : List ℕ} (hsort : List.Pairwise (· < ·) l) (h0 : 0 < l.length)
    {x : ℕ} (hx : x ∈ l) : l.get ⟨0, h0⟩ ≤ x := by
  have hpg := List.pairwise_iff_get.mp hsort
  obtain ⟨⟨k, hk⟩, rfl⟩ := List.mem_iff_get.mp hx
  rcases Nat.eq_zero_or_pos k with hk0 | hk0
  · exact le_of_eq (congrArg l.get (Fin.ext hk0.symm))
  · exact le_of_lt (hpg ⟨0, h0⟩ ⟨k, hk⟩ (Fin.mk_lt_mk.mpr hk0))

/-- The top entry of a strictly sorted list is its maximum. -/
theorem sorted_le_getLast {l : List ℕ} (hsort : List.Pairwise (· < ·) l) (h0 : 0 < l.length)
    {x : ℕ} (hx : x ∈ l) : x ≤ l.get ⟨l.length - 1, by omega⟩ := by
  have hpg := List.pairwise_iff_get.mp hsort
  obtain ⟨⟨k, hk⟩, rfl⟩ := List.mem_iff_get.mp hx
  rcases Nat.eq_or_lt_of_le (show k ≤ l.length - 1 by omega) with hk1 | hk1
  · exact le_of_eq (congrArg l.get (Fin.ext hk1))
  · exact le_of_lt (hpg ⟨k, hk⟩ ⟨l.length - 1, by omega⟩ (Fin.mk_lt_mk.mpr hk1))

/-- In the sorted list of a cyclically contiguous block, an element followed by
something other than the block head is followed by its cyclic successor. -/
theorem block_pair_succ {l : List ℕ} {N s m : ℕ} (hN : 2 ≤ N) (hs : s < N)
    (hmN : m ≤ N - 1) (hsort : List.Pairwise (· < ·) l)
    (hmem : ∀ x, x ∈ l ↔ ∃ j, j < m ∧ (s + 1 + j) % N = x)
    {q : ℕ} (hq0 : q < l.length) (hq1 : q + 1 < l.length)
    (hne : l.get ⟨q + 1, hq1⟩ ≠ (s + 1) % N) :
    l.get ⟨q + 1, hq1⟩ = (l.get ⟨q, hq0⟩ + 1) % N := by
  have hpg := List.pairwise_iff_get.mp hsort
  have hamem : l.get ⟨q, hq0⟩ ∈ l := List.mem_iff_get.mpr ⟨⟨q, hq0⟩, rfl⟩
  have hbmem : l.get ⟨q + 1, hq1⟩ ∈ l := List.mem_iff_get.mpr ⟨⟨q + 1, hq1⟩, rfl⟩
  obtain ⟨ja, hjam, hja⟩ := (hmem _).mp hamem
  obtain ⟨jb, hjbm, hjb⟩ := (hmem _).mp hbmem
  obtain ⟨a, ha⟩ : ∃ a, a = l.get ⟨q, hq0⟩ := ⟨_, rfl⟩
  obtain ⟨b, hb⟩ : ∃ b, b = l.get ⟨q + 1, hq1⟩ := ⟨_, rfl⟩
  have hab : a < b := by
    rw [ha, hb]
    exact hpg ⟨q, hq0⟩ ⟨q + 1, hq1⟩ (Fin.mk_lt_mk.mpr (Nat.lt_succ_self q))
  have hmin : ∀ x ∈ l, a < x → b ≤ x := by
    intro x hx hax
    rw [hb]
    rw [ha] at hax
    obtain ⟨⟨k, hk⟩, rfl⟩ := List.mem_iff_get.mp hx
    rcases Nat.lt_trichotomy k (q + 1) with hlt | heq | hgt
    · exfalso
      rcases Nat.lt_or_ge k q with hkq | hkq
      · exact lt_asymm hax (hpg ⟨k, hk⟩ ⟨q, hq0⟩ (Fin.mk_lt_mk.mpr hkq))
      · have hkq2 : l.get ⟨k, hk⟩ = l.get ⟨q, hq0⟩ :=
          congrArg l.get (Fin.ext (show k = q from by omega))
        rw [hkq2] at hax
        exact lt_irrefl _ hax
    · exact le_of_eq (congrArg l.get (Fin.ext heq.symm))
    · exact le_of_lt (hpg ⟨q + 1, hq1⟩ ⟨k, hk⟩ (Fin.mk_lt_mk.mpr hgt))
  rw [← ha] at hja
  rw [← hb] at hjb hne
  rw [← ha, ← hb]
  have hm0 : 0 < m := by omega
  have hjad : (s + 1 + ja < N ∧ s + 1 + ja = a) ∨ (N ≤ s + 1 + ja ∧ s + 1 + ja - N = a) := by
    by_cases hwa : s + 1 + ja < N
    · left
      exact ⟨hwa, by rw [← hja]; exact (Nat.mod_eq_of_lt hwa).symm⟩
    · right
      refine ⟨by omega, ?_⟩
      rw [← hja, Nat.mod_eq_sub_mod (by omega)]
      exact (Nat.mod_eq_of_lt (by omega)).symm
  have hjbd : (s + 1 + jb < N ∧ s + 1 + jb = b) ∨ (N ≤ s + 1 + jb ∧ s + 1 + jb - N = b) := by
    by_cases hwb : s + 1 + jb < N
    · left
      exact ⟨hwb, by rw [← hjb]; exact (Nat.mod_eq_of_lt hwb).symm⟩
    · right
      refine ⟨by omega, ?_⟩
      rw [← hjb, Nat.mod_eq_sub_mod (by omega)]
      exact (Nat.mod_eq_of_lt (by omega)).symm
  have haN : a < N := by omega
  have he0d : (s + 1 < N ∧ (s + 1) % N = s + 1) ∨ (s + 1 = N ∧ (s + 1) % N = 0) := by
    by_cases hw0 : s + 1 < N
    · exact Or.inl ⟨hw0, Nat.mod_eq_of_lt hw0⟩
    · refine Or.inr ⟨by omega, ?_⟩
      rw [show s + 1 = N from by omega]
      exact Nat.mod_self N
  have hsucc : ja + 1 < m → a + 1 < N → b ≤ a + 1 := by
    intro hj1 hN1
    apply hmin (a + 1) _ (by omega)
    rw [hmem]
    refine ⟨ja + 1, hj1, ?_⟩
    rcases hjad with ⟨h1, h2⟩ | ⟨h1, h2⟩
    · rw [show s + 1 + (ja + 1) = a + 1 from by omega]
      exact Nat.mod_eq_of_lt (by omega)
    · rw [show s + 1 + (ja + 1) = a + 1 + N from by omega, Nat.add_mod_right]
      exact Nat.mod_eq_of_lt (by omega)
  have hblock : a < (s + 1) % N → b ≤ (s + 1) % N := by
    intro hlt
    apply hmin _ _ hlt
    rw [hmem]
    refine ⟨0, hm0, ?_⟩
    rw [Nat.add_zero]
  have hgoald : (a + 1 < N ∧ (a + 1) % N = a + 1) ∨ (a + 1 = N ∧ (a + 1) % N = 0) := by
    by_cases hw1 : a + 1 < N
    · exact Or.inl ⟨hw1, Nat.mod_eq_of_lt hw1⟩
    · refine Or.inr ⟨by omega, ?_⟩
      rw [show a + 1 = N from by omega]
      exact Nat.mod_self N
  omega

/-- In the sorted list of a cyclically contiguous block whose first entry is not
the block head, the last entry wraps onto the first. -/
theorem block_wrap_pair {l : List ℕ} {N s m : ℕ} (hN : 2 ≤ N) (hs : s < N)
    (hmN : m ≤ N - 1) (hm0 : 0 < m) (hsort : List.Pairwise (· < ·) l)
    (hmem : ∀ x, x ∈ l ↔ ∃ j, j < m ∧ (s + 1 + j) % N = x)
    (h0 : 0 < l.length) (hlast : l.length - 1 < l.length)
    (hne : l.get ⟨0, h0⟩ ≠ (s + 1) % N) :
    l.get ⟨0, h0⟩ = (l.get ⟨l.length - 1, hlast⟩ + 1) % N := by
  have hhmem : l.get ⟨0, h0⟩ ∈ l := List.mem_iff_get.mpr ⟨⟨0, h0⟩, rfl⟩
  have hgmem : l.get ⟨l.length - 1, hlast⟩ ∈ l := List.mem_iff_get.mpr ⟨⟨l.length - 1, hlast⟩, rfl⟩
  obtain ⟨jh, hjhm, hjh⟩ := (hmem _).mp hhmem
  obtain ⟨jg, hjgm, hjg⟩ := (hmem _).mp hgmem
  obtain ⟨h, hh⟩ : ∃ h, h = l.get ⟨0, h0⟩ := ⟨_, rfl⟩
  obtain ⟨g, hg⟩ : ∃ g, g = l.get ⟨l.length - 1, hlast⟩ := ⟨_, rfl⟩
  rw [← hh] at hjh hne
  rw [← hg] at hjg
  rw [← hh, ← hg]
  have hjhd : (s + 1 + jh < N ∧ s + 1 + jh = h) ∨ (N ≤ s + 1 + jh ∧ s + 1 + jh - N = h) := by
    by_cases hw : s + 1 + jh < N
    · left
      exact ⟨hw, by rw [← hjh]; exact (Nat.mod_eq_of_lt hw).symm⟩
    · right
      refine ⟨by omega, ?_⟩
      rw [← hjh, Nat.mod_eq_sub_mod (by omega)]
      exact (Nat.mod_eq_of_lt (by omega)).symm
  have hjgd : (s + 1 + jg < N ∧ s + 1 + jg = g) ∨ (N ≤ s + 1 + jg ∧ s + 1 + jg - N = g) := by
    by_cases hw : s + 1 + jg < N
    · left
      exact ⟨hw, by rw [← hjg]; exact (Nat.mod_eq_of_lt hw).symm⟩
    · right
      refine ⟨by omega, ?_⟩
      rw [← hjg, Nat.mod_eq_sub_mod (by omega)]
      exact (Nat.mod_eq_of_lt (by omega)).symm
  have he0d : (s + 1 < N ∧ (s + 1) % N = s + 1) ∨ (s + 1 = N ∧ (s + 1) % N = 0) := by
    by_cases hw0 : s + 1 < N
    · exact Or.inl ⟨hw0, Nat.mod_eq_of_lt hw0⟩
    · refine Or.inr ⟨by omega, ?_⟩
      rw [show s + 1 = N from by omega]
      exact Nat.mod_self N
  have hhE : h ≤ (s + 1) % N := by
    rw [hh]
    apply sorted_get_le hsort h0
    rw [hmem]
    exact ⟨0, hm0, by rw [Nat.add_zero]⟩
  have hz : N - s - 1 < m → h ≤ 0 := by
    intro hism
    rw [hh]
    apply sorted_get_le hsort h0
    rw [hmem]
    refine ⟨N - s - 1, hism, ?_⟩
    rw [show s + 1 + (N - s - 1) = 0 + N from by omega, Nat.add_mod_right]
    exact Nat.zero_mod N
  have hn1 : N - s - 2 < m → s + 1 < N → N - 1 ≤ g := by
    intro hism hw
    rw [hg]
    apply sorted_le_getLast hsort h0
    rw [hmem]
    refine ⟨N - s - 2, hism, ?_⟩
    rw [show s + 1 + (N - s - 2) = N - 1 from by omega]
    exact Nat.mod_eq_of_lt (by omega)
  have hgoald : (g + 1 < N ∧ (g + 1) % N = g + 1) ∨ (g + 1 = N ∧ (g + 1) % N = 0) := by
    by_cases hw1 : g + 1 < N
    · exact Or.inl ⟨hw1, Nat.mod_eq_of_lt hw1⟩
    · refine Or.inr ⟨by omega, ?_⟩
      rw [show g + 1 = N from by omega]
      exact Nat.mod_self N
  omega

end BlockList

section BlockRotate

/-- One-step unfolding of the alignment loop. -/
theorem rollUntil_succ (N target fuel : ℕ) (l : List ℕ) :
    rollUntil N target (fuel + 1) l
      = match l.head? with
        | none => some l
        | some h =>
          if ((h : ℤ) - 1) % (N : ℤ) = (target : ℤ) then some l
          else rollUntil N target fuel (roll1 l) := rfl

/-- One-step unfolding of the alignment loop through a known head. -/
theorem rollUntil_head (N target fuel : ℕ) (l : List ℕ) (h : ℕ) (hh : l.head? = some h) :
    rollUntil N target (fuel + 1) l
      = if ((h : ℤ) - 1) % (N : ℤ) = (target : ℤ) then some l
        else rollUntil N target fuel (roll1 l) := by
  rw [rollUntil_succ, hh]

/-- Rolling the one-step rotation back returns the original list. -/
theorem roll1_rotate_one {l : List ℕ} (hl : l ≠ []) : roll1 (l.rotate 1) = l := by
  cases l with
  | nil => exact absurd rfl hl
  | cons a t =>
    rw [List.rotate_cons_succ, List.rotate_zero]
    unfold roll1
    rw [List.getLast?_concat, List.dropLast_concat]

/-- The alignment-loop stop test holds exactly for the cyclic successor of the
start tooth index. -/
theorem stop_cond_iff {N s h : ℕ} (hN : 0 < N) (hs : s < N) (hh : h < N) :
    (((h : ℤ) - 1) % (N : ℤ) = (s : ℤ)) ↔ h = (s + 1) % N := by
  have hm1 : (-1 : ℤ) % (N : ℤ) = (N : ℤ) - 1 := by
    have h1 : (-1 : ℤ) = ((N : ℤ) - 1) + (N : ℤ) * (-1) := by ring
    rw [h1, Int.add_mul_emod_self_left]
    exact Int.emod_eq_of_lt (by omega) (by omega)
  constructor
  · intro heq
    rcases Nat.eq_zero_or_pos h with h0 | h0
    · subst h0
      norm_num at heq
      rw [hm1] at heq
      rw [show s + 1 = N from by omega, Nat.mod_self]
    · have h2 : ((h : ℤ) - 1) % (N : ℤ) = (h : ℤ) - 1 :=
        Int.emod_eq_of_lt (by omega) (by omega)
      rw [h2] at heq
      rw [show s + 1 = h from by omega]
      exact (Nat.mod_eq_of_lt hh).symm
  · intro heq
    by_cases hsN : s + 1 < N
    · rw [Nat.mod_eq_of_lt hsN] at heq
      subst heq
      rw [show ((s + 1 : ℕ) : ℤ) - 1 = (s : ℤ) from by push_cast; ring]
      exact Int.emod_eq_of_lt (by omega) (by omega)
    · have hsN1 : s + 1 = N := by omega
      rw [hsN1, Nat.mod_self] at heq
      subst heq
      norm_num
      rw [hm1]
      omega

/-- The alignment loop, started on any backward rotation of a list whose head
passes the stop test, terminates with that list. -/
theorem rollUntil_of_rotate {N s : ℕ} (hN : 2 ≤ N) (hs : s < N) {o : List ℕ}
    (hnodup : o.Nodup) (hbound : ∀ x ∈ o, x < N)
    (h0 : 0 < o.length) (hhead : o.get ⟨0, h0⟩ = (s + 1) % N) :
    ∀ j fuel, j < o.length → j < fuel → rollUntil N s fuel (o.rotate j) = some o := by
  intro j
  induction j with
  | zero =>
    intro fuel hj0 hfuel
    obtain ⟨fuel1, rfl⟩ : ∃ f, fuel = f + 1 := ⟨fuel - 1, by omega⟩
    rw [List.rotate_zero]
    rw [rollUntil_head N s fuel1 o (o.get ⟨0, h0⟩) (head_eq_get o h0)]
    rw [hhead]
    rw [if_pos ((stop_cond_iff (show 0 < N by omega) hs
      (Nat.mod_lt _ (show 0 < N by omega))).mpr rfl)]
  | succ j ih =>
    intro fuel hj hfuel
    obtain ⟨fuel1, rfl⟩ : ∃ f, fuel = f + 1 := ⟨fuel - 1, by omega⟩
    have hjo : j + 1 < o.length := hj
    rw [rollUntil_head N s fuel1 _ _ (head_rotate o (j + 1) hjo)]
    have hne2 : o.get ⟨j + 1, hjo⟩ ≠ (s + 1) % N := by
      rw [← hhead]
      intro hcon
      have hfin := hnodup.get_inj_iff.mp hcon
      have hval : j + 1 = 0 := congrArg Fin.val hfin
      omega
    rw [if_neg (fun hcon => hne2 ((stop_cond_iff (show 0 < N by omega) hs
      (hbound _ (List.mem_iff_get.mpr ⟨⟨j + 1, hjo⟩, rfl⟩))).mp hcon))]
    have hroll : roll1 (o.rotate (j + 1)) = o.rotate j := by
      have h1 : (o.rotate j).rotate 1 = o.rotate (j + 1) := by
        rw [List.rotate_rotate]
      rw [← h1]
      apply roll1_rotate_one
      intro hemp
      have hlen := congrArg List.length hemp
      rw [List.length_rotate] at hlen
      simp only [List.length_nil] at hlen
      omega
    rw [hroll]
    exact ih fuel1 (by omega) (by omega)

/-- A rotation of the sorted block list aligned to start at the block head is
cyclically contiguous. -/
theorem block_chain_rotate {l : List ℕ} {N s m : ℕ} (hN : 2 ≤ N) (hs : s < N)
    (hmN : m ≤ N - 1) (hm0 : 0 < m) (hsort : List.Pairwise (· < ·) l)
    (hnodup : l.Nodup)
    (hmem : ∀ x, x ∈ l ↔ ∃ j, j < m ∧ (s + 1 + j) % N = x)
    {t : ℕ} (ht : t < l.length) (hget : l.get ⟨t, ht⟩ = (s + 1) % N) :
    List.Chain' (fun a b => b = (a + 1) % N) (l.rotate t) := by
  rw [List.chain'_iff_get]
  intro i hi
  rw [List.length_rotate] at hi
  have hlen2 : 2 ≤ l.length := by omega
  rw [List.get_rotate, List.get_rotate]
  simp only [Fin.val_mk]
  obtain ⟨q, hqdef⟩ : ∃ q, q = (i + t) % l.length := ⟨_, rfl⟩
  have hqlen : q < l.length := by
    rw [hqdef]
    exact Nat.mod_lt _ (by omega)
  have hstep : (i + 1 + t) % l.length = (q + 1) % l.length := by
    rw [hqdef, mod_succ_step hlen2 (i + t), show i + 1 + t = i + t + 1 from by omega]
  have hstep0 : (i + t) % l.length = q := hqdef.symm
  by_cases hqlt : q + 1 < l.length
  · have hstep1 : (i + 1 + t) % l.length = q + 1 := by
      rw [hstep]
      exact Nat.mod_eq_of_lt hqlt
    simp only [hstep1, hstep0]
    apply block_pair_succ hN hs hmN hsort hmem hqlen hqlt
    intro hcon
    rw [← hget] at hcon
    have hfin := hnodup.get_inj_iff.mp hcon
    have hval : q + 1 = t := congrArg Fin.val hfin
    have hm1 : Nat.ModEq l.length (i + 1 + q) (0 + q) := by
      show (i + 1 + q) % l.length = (0 + q) % l.length
      rw [show i + 1 + q = i + t from by omega, Nat.zero_add, Nat.mod_eq_of_lt hqlen]
      exact hstep0
    have hm2 := Nat.ModEq.add_right_cancel' q hm1
    have hm3 : (i + 1) % l.length = 0 % l.length := hm2
    rw [Nat.mod_eq_of_lt (by omega), Nat.zero_mod] at hm3
    omega
  · have hqeq : q + 1 = l.length := by omega
    have hstep1 : (i + 1 + t) % l.length = 0 := by
      rw [hstep, hqeq, Nat.mod_self]
    simp only [hstep1, hstep0]
    have hq1 : q = l.length - 1 := by omega
    simp only [hq1]
    apply block_wrap_pair hN hs hmN hm0 hsort hmem (by omega) (by omega)
    intro hcon
    rw [← hget] at hcon
    have hfin := hnodup.get_inj_iff.mp hcon
    have hval : 0 = t := congrArg Fin.val hfin
    have hieq : (i + t) % l.length = i := by
      rw [← hval, Nat.add_zero]
      exact Nat.mod_eq_of_lt (by omega)
    have hq2 : q = i := by
      rw [hqdef, hieq]
    omega

end BlockRotate

section SortoutMain

variable {α : Type*} [LinearOrderedField α] [FloorRing α]

/-- The alignment loop leaves an empty list unchanged. -/
theorem rollUntil_nil (N target fuel : ℕ) (h : 0 < fuel) :
    rollUntil N target fuel ([] : List ℕ) = some [] := by
  obtain ⟨f, rfl⟩ : ∃ f, fuel = f + 1 := ⟨fuel - 1, by omega⟩
  rfl

/-- C2: whenever the tooth-sorting step returns a non-empty list of full-tooth
indices, that list contains no duplicates, is contiguous modulo the tooth count
(each entry is the cyclic successor of the previous one), and its first entry is
the tooth immediately after the clipped start tooth; sectors wrapping through
angle zero are covered, since only the wrapped offsets enter the argument. -/
theorem sortout_full_teeth_contiguous {p tooth_ang : α} (hτ : 0 < tooth_ang) {N : ℕ}
    (hpN : tooth_ang * N = p) (hN : 2 ≤ N) (ang0 : α) {sec_st sec_en : α}
    (hst0 : 0 ≤ sec_st) (hst1 : sec_st < p) (hen0 : 0 ≤ sec_en) (hen1 : sec_en < p)
    {res : SortoutResult}
    (hres : sortout_teeth p tooth_ang ang0 N sec_st sec_en = some res)
    (hnonempty : res.full_teeth_ins ≠ []) :
    res.full_teeth_ins.Nodup
    ∧ List.Chain' (fun a b => b = (a + 1) % N) res.full_teeth_ins
    ∧ res.full_teeth_ins.head? = some ((res.st_tooth_idx + 1) % N) := by
  unfold sortout_teeth at hres
  split at hres
  case _ s e hfs hfe =>
    split at hres
    case _ l hrol =>
      simp only [Option.some.injEq] at hres
      subst hres
      have hlne : l ≠ [] := hnonempty
      show l.Nodup ∧ List.Chain' (fun a b => b = (a + 1) % N) l
        ∧ l.head? = some ((s + 1) % N)
      have hsmem : s < N := by
        have h1 := List.mem_of_find?_eq_some hfs
        rwa [List.mem_range] at h1
      have hswithin : seg_edge_within p tooth_ang ang0 N sec_st s = true :=
        List.find?_some hfs
      have hsfull : full_tooth_bm p tooth_ang ang0 N sec_st sec_en s = false :=
        full_tooth_bm_st_false hswithin
      obtain ⟨lfil, hlfil⟩ : ∃ x,
          x = (List.range N).filter (full_tooth_bm p tooth_ang ang0 N sec_st sec_en) :=
        ⟨_, rfl⟩
      rw [← hlfil] at hrol
      have hthresh : ∃ m, m ≤ N - 1 ∧ ∀ j, j ≤ N - 2 →
          (full_tooth_bm p tooth_ang ang0 N sec_st sec_en ((s + 1 + j) % N) = true
            ↔ j < m) := by
        by_cases hsecase : sec_st = sec_en
        · subst hsecase
          exact ⟨N - 1, le_refl _, fun j hj => ⟨fun _ => by omega, fun _ =>
            full_tooth_bm_of_eq hτ hpN hN ang0 hst0 hst1 hsmem hswithin hj⟩⟩
        · have hmono : ∀ j j', j' ≤ j → j ≤ N - 2 →
              full_tooth_bm p tooth_ang ang0 N sec_st sec_en ((s + 1 + j) % N) = true →
              full_tooth_bm p tooth_ang ang0 N sec_st sec_en ((s + 1 + j') % N) = true := by
            intro j j' hj'j hjn hCj
            rw [full_tooth_bm_iff_of_ne hτ hpN hN ang0 hst0 hst1 hen0 hen1 hsecase hsmem
              hswithin hjn] at hCj
            rw [full_tooth_bm_iff_of_ne hτ hpN hN ang0 hst0 hst1 hen0 hen1 hsecase hsmem
              hswithin (show j' ≤ N - 2 by omega)]
            have hcast : (j' : α) ≤ (j : α) := by exact_mod_cast hj'j
            have hmul : tooth_ang * ((j' : α) + 1) ≤ tooth_ang * ((j : α) + 1) :=
              mul_le_mul_of_nonneg_left (by linarith) (le_of_lt hτ)
            linarith
          obtain ⟨m, hm1, hm2⟩ := exists_threshold hmono
          exact ⟨m, by omega, hm2⟩
      obtain ⟨m, hmN2, hm⟩ := hthresh
      have hmemchar : ∀ x, x ∈ lfil ↔ ∃ j, j < m ∧ (s + 1 + j) % N = x := by
        intro x
        rw [hlfil]
        exact mem_filter_full_iff hN hsmem hmN2 hm hsfull x
      have hsorted : List.Pairwise (· < ·) lfil := by
        rw [hlfil]
        exact List.Pairwise.filter _ (List.pairwise_lt_range N)
      have hnodupf : lfil.Nodup := hsorted.imp (fun h => ne_of_lt h)
      have hfilne : lfil ≠ [] := by
        intro hemp
        rw [hemp, rollUntil_nil N s N (by omega)] at hrol
        exact hlne (Option.some.inj hrol).symm
      have hm0 : 0 < m := by
        by_contra hm00
        push_neg at hm00
        apply hfilne
        apply List.eq_nil_iff_forall_not_mem.mpr
        intro x hx
        obtain ⟨j, hj, _⟩ := (hmemchar x).mp hx
        omega
      have he0mem : (s + 1) % N ∈ lfil := (hmemchar _).mpr ⟨0, hm0, by rw [Nat.add_zero]⟩
      obtain ⟨⟨t, htlen⟩, htget⟩ := List.mem_iff_get.mp he0mem
      have hchain := block_chain_rotate hN hsmem hmN2 hm0 hsorted hnodupf hmemchar htlen htget
      have honodup : (lfil.rotate t).Nodup := List.nodup_rotate.mpr hnodupf
      have hohead : (lfil.rotate t).head? = some ((s + 1) % N) := by
        rw [head_rotate lfil t htlen, htget]
      have hobound : ∀ x ∈ lfil.rotate t, x < N := by
        intro x hx
        rw [List.mem_rotate] at hx
        obtain ⟨j, hj, hjx⟩ := (hmemchar x).mp hx
        rw [← hjx]
        exact Nat.mod_lt _ (by omega)
      have hlfpos : 0 < lfil.length := List.length_pos.mpr hfilne
      have hro0 : 0 < (lfil.rotate t).length := by
        rw [List.length_rotate]
        exact hlfpos
      have hoget : (lfil.rotate t).get ⟨0, hro0⟩ = (s + 1) % N := by
        have h1 := head_eq_get (lfil.rotate t) hro0
        rw [hohead] at h1
        exact (Option.some.inj h1).symm
      have hlfil_eq : lfil = (lfil.rotate t).rotate ((lfil.length - t) % lfil.length) := by
        rw [List.rotate_rotate]
        rcases Nat.eq_zero_or_pos t with ht0 | ht0
        · subst ht0
          rw [Nat.zero_add, Nat.sub_zero, Nat.mod_self, List.rotate_zero]
        · have hmod : (lfil.length - t) % lfil.length = lfil.length - t :=
            Nat.mod_eq_of_lt (by omega)
          rw [hmod, show t + (lfil.length - t) = lfil.length from by omega,
            List.rotate_length]
      have hj0len : (lfil.length - t) % lfil.length < (lfil.rotate t).length := by
        rw [List.length_rotate]
        exact Nat.mod_lt _ (by omega)
      have hlenN : lfil.length ≤ N := by
        have h1 := List.length_filter_le
          (full_tooth_bm p tooth_ang ang0 N sec_st sec_en) (List.range N)
        rw [List.length_range] at h1
        rw [hlfil]
        exact h1
      have hj0fuel : (lfil.length - t) % lfil.length < N := by
        have h2 := Nat.mod_lt (lfil.length - t) hlfpos
        omega
      have hroll_eq := rollUntil_of_rotate hN hsmem honodup hobound hro0 hoget
        ((lfil.length - t) % lfil.length) N hj0len hj0fuel
      rw [← hlfil_eq, hrol] at hroll_eq
      have hleq : l = lfil.rotate t := Option.some.inj hroll_eq
      subst hleq
      exact ⟨honodup, hchain, hohead⟩
    case _ hrol =>
      simp at hres
  case _ h1 h2 =>
    simp at hres

end SortoutMain

/-- Concrete witness for the tooth-sorting contiguity theorem: three teeth of span
`1` on a circle of circumference `3`, sector from `1` to `0` (wrapping through
zero), giving the single full tooth `2` right after the start tooth `1`. -/
theorem sortout_full_teeth_contiguous_witness :
    sortout_teeth (3 : ℚ) 1 0 3 1 0 = some ⟨1, [2], 0⟩
    ∧ ([2] : List ℕ).Nodup
    ∧ List.Chain' (fun a b => b = (a + 1) % 3) [2]
    ∧ ([2] : List ℕ).head? = some ((1 + 1) % 3) := by
  have hest0 : seg_edge_within (3 : ℚ) 1 0 3 1 0 = false := by
    unfold seg_edge_within teeth_sts pyRemainder is_within_ang
    push_cast
    norm_num
  have hest1 : seg_edge_within (3 : ℚ) 1 0 3 1 1 = true := by
    unfold seg_edge_within teeth_sts pyRemainder is_within_ang
    push_cast
    norm_num
  have hest2 : seg_edge_within (3 : ℚ) 1 0 3 1 2 = false := by
    unfold seg_edge_within teeth_sts pyRemainder is_within_ang
    push_cast
    norm_num
  have heen0 : seg_edge_within (3 : ℚ) 1 0 3 0 0 = true := by
    unfold seg_edge_within teeth_sts pyRemainder is_within_ang
    push_cast
    norm_num
  have heen2 : seg_edge_within (3 : ℚ) 1 0 3 0 2 = false := by
    unfold seg_edge_within teeth_sts pyRemainder is_within_ang
    push_cast
    norm_num
  have hbm0 : tooth_st_bm (3 : ℚ) 1 0 1 0 0 = true := by
    unfold tooth_st_bm teeth_sts pyRemainder is_within_ang
    push_cast
    norm_num
  have hbm1 : tooth_st_bm (3 : ℚ) 1 0 1 0 1 = true := by
    unfold tooth_st_bm teeth_sts pyRemainder is_within_ang
    push_cast
    norm_num
  have hbm2 : tooth_st_bm (3 : ℚ) 1 0 1 0 2 = true := by
    unfold tooth_st_bm teeth_sts pyRemainder is_within_ang
    push_cast
    norm_num
  have hfull0 : full_tooth_bm (3 : ℚ) 1 0 3 1 0 0 = false := by
    unfold full_tooth_bm
    norm_num [hbm0, hbm1, hest0, heen0]
  have hfull1 : full_tooth_bm (3 : ℚ) 1 0 3 1 0 1 = false := by
    unfold full_tooth_bm
    norm_num [hbm1, hbm2, hest1]
  have hfull2 : full_tooth_bm (3 : ℚ) 1 0 3 1 0 2 = true := by
    unfold full_tooth_bm
    norm_num [hbm2, hbm0, hest2, heen2]
  have hres : sortout_teeth (3 : ℚ) 1 0 3 1 0 = some ⟨1, [2], 0⟩ := by
    unfold sortout_teeth
    rw [show List.range 3 = [0, 1, 2] from rfl]
    rw [show List.find? (seg_edge_within (3 : ℚ) 1 0 3 1) [0, 1, 2] = some 1 from by
      simp only [List.find?_cons, hest0, hest1]]
    rw [show List.find? (seg_edge_within (3 : ℚ) 1 0 3 0) [0, 1, 2] = some 0 from by
      simp only [List.find?_cons, heen0]]
    rw [show List.filter (full_tooth_bm (3 : ℚ) 1 0 3 1 0) [0, 1, 2] = [2] from by
      simp only [List.filter_cons, hfull0, hfull1, hfull2]
      rfl]
    rfl
  have h := sortout_full_teeth_contiguous (show (0 : ℚ) < 1 by norm_num)
    (show (1 : ℚ) * ((3 : ℕ) : ℚ) = 3 by norm_num) (show 2 ≤ 3 by omega) 0
    (show (0 : ℚ) ≤ 1 by norm_num) (show (1 : ℚ) < 3 by norm_num)
    (show (0 : ℚ) ≤ 0 by norm_num) (show (0 : ℚ) < 3 by norm_num)
    hres (by decide)
  exact ⟨hres, h.1, h.2.1, h.2.2⟩

/-! ## Sector profile extraction (`tooth_profile.py`, `GearSector.get_sector_profile`
lines 287-318 and `GearSector._get_term_tooth_profile` lines 344-353) -/

/-- Model of `np.nonzero(bm)[0]`: the indices of the `true` entries, in order. -/
def nonzeroIndices (bm : List Bool) : List ℕ :=
  (List.range bm.length).filter (fun i => bm.getD i false)

/-- Python slice `l[i:]` with a possibly negative index. -/
def pySliceFrom {β : Type*} (l : List β) (i : ℤ) : List β :=
  if 0 ≤ i then l.drop i.toNat else l.drop (max 0 ((l.length : ℤ) + i)).toNat

/-- Python slice `l[:i]` with a possibly negative index. -/
def pySliceTo {β : Type*} (l : List β) (i : ℤ) : List β :=
  if 0 ≤ i then l.take i.toNat else l.take (max 0 ((l.length : ℤ) + i)).toNat

/-- The reference tooth rotated into place:
`rotate(*full_tooth_profile, tooth_angle * tooth_idx + rot_ang)`. -/
noncomputable def rotated_tooth (profile : List (ℝ × ℝ)) (tooth_angle rot_ang : ℝ)
    (tooth_idx : ℕ) : List (ℝ × ℝ) :=
  profile.map (fun pt => rotate pt.1 pt.2 (tooth_angle * tooth_idx + rot_ang))

/-- `np.nonzero(is_within_ang(cartesian_to_polar(*tooth)[0], sec_st, sec_en))[0]`:
indices of the rotated tooth's sampled points lying in the sector. -/
noncomputable def tooth_pts_in_sector (profile : List (ℝ × ℝ)) (tooth_angle rot_ang : ℝ)
    (tooth_idx : ℕ) (sec_st sec_en : ℝ) : List ℕ :=
  nonzeroIndices ((rotated_tooth profile tooth_angle rot_ang tooth_idx).map
    (fun pt => is_within_ang (cartesian_to_polar pt.1 pt.2).1 sec_st sec_en))

/-- Model of `GearSector._get_term_tooth_profile` (lines 344-353): clip the rotated
tooth at the first in-sector point (start tooth) or just after the last in-sector
point (end tooth), falling back to the Python index `-1 + is_en` when no point is
inside. -/
noncomputable def get_term_tooth_profile (profile : List (ℝ × ℝ)) (tooth_angle : ℝ)
    (tooth_idx : ℕ) (sec_st sec_en rot_ang : ℝ) (is_en : Bool) : List (ℝ × ℝ) :=
  if is_en then
    pySliceTo (rotated_tooth profile tooth_angle rot_ang tooth_idx)
      (match (tooth_pts_in_sector profile tooth_angle rot_ang tooth_idx sec_st sec_en).getLast? with
        | some k => (k : ℤ) + 1
        | none => 0)
  else
    pySliceFrom (rotated_tooth profile tooth_angle rot_ang tooth_idx)
      (match (tooth_pts_in_sector profile tooth_angle rot_ang tooth_idx sec_st sec_en).head? with
        | some k => (k : ℤ)
        | none => -1)

/-- Angular position of the reference tooth's first point after rotation
(`cartesian_to_polar(*self.full_tooth_profile[:, 0])[0] + rot_ang`, line 321). -/
noncomputable def profile_ang0 (profile : List (ℝ × ℝ)) (rot_ang : ℝ) : ℝ :=
  (cartesian_to_polar (profile.headD (0, 0)).1 (profile.headD (0, 0)).2).1 + rot_ang

/-- Model of `GearSector.get_sector_profile(sec_st, sec_en, rot_ang)` (lines
287-318). `none` propagates the unmodelled failure of `_sortout_teeth`; the inner
`Except` is the `ValueError` of the single-tooth branch. -/
noncomputable def get_sector_profile (profile : List (ℝ × ℝ)) (tooth_angle p : ℝ)
    (N : ℕ) (sec_st sec_en rot_ang : ℝ) : Option (Except String (List (ℝ × ℝ))) :=
  match sortout_teeth p tooth_angle (profile_ang0 profile rot_ang) N sec_st sec_en with
  | none => none
  | some res =>
    if res.full_teeth_ins = [] ∧ res.st_tooth_idx = res.en_tooth_idx then
      if tooth_pts_in_sector profile tooth_angle rot_ang res.st_tooth_idx sec_st sec_en
          = [] then
        some (Except.error "The segment is too narrow; no points inside!")
      else
        some (Except.ok
          (((rotated_tooth profile tooth_angle rot_ang res.st_tooth_idx).drop
              ((tooth_pts_in_sector profile tooth_angle rot_ang res.st_tooth_idx
                  sec_st sec_en).headD 0)).take
            ((tooth_pts_in_sector profile tooth_angle rot_ang res.st_tooth_idx
                sec_st sec_en).getLastD 0 + 1
              - (tooth_pts_in_sector profile tooth_angle rot_ang res.st_tooth_idx
                  sec_st sec_en).headD 0)))
    else
      some (Except.ok (stack_curves
        (get_term_tooth_profile profile tooth_angle res.st_tooth_idx sec_st sec_en rot_ang
            false
          :: (res.full_teeth_ins.map
                (fun i => rotated_tooth profile tooth_angle rot_ang i)
              ++ [get_term_tooth_profile profile tooth_angle res.en_tooth_idx sec_st sec_en
                    rot_ang true]))))

/-- The nonzero-index list is empty exactly when the bitmap is all false. -/
theorem nonzeroIndices_eq_nil_iff (bm : List Bool) :
    nonzeroIndices bm = [] ↔ ∀ b ∈ bm, b = false := by
  unfold nonzeroIndices
  rw [List.filter_eq_nil_iff]
  constructor
  · intro h b hb
    obtain ⟨⟨i, hi⟩, rfl⟩ := List.mem_iff_get.mp hb
    have hfalse := h i (List.mem_range.mpr hi)
    have hg : bm.getD i false = bm.get ⟨i, hi⟩ := by
      rw [List.getD_eq_getElem?_getD, List.getElem?_eq_getElem hi, List.get_eq_getElem]
      rfl
    rw [hg, Bool.not_eq_true] at hfalse
    exact hfalse
  · intro h i hi
    rw [List.mem_range] at hi
    have hg : bm.getD i false = bm.get ⟨i, hi⟩ := by
      rw [List.getD_eq_getElem?_getD, List.getElem?_eq_getElem hi, List.get_eq_getElem]
      rfl
    rw [hg, h _ (List.mem_iff_get.mpr ⟨⟨i, hi⟩, rfl⟩)]
    simp

/-- Members of the nonzero-index list point at true entries of the bitmap. -/
theorem mem_nonzeroIndices (bm : List Bool) {i : ℕ} (h : i ∈ nonzeroIndices bm) :
    i < bm.length ∧ bm.getD i false = true := by
  unfold nonzeroIndices at h
  rw [List.mem_filter, List.mem_range] at h
  exact h

/-- The in-sector index list is empty exactly when no sampled point of the rotated
tooth lies within the sector. -/
theorem tooth_pts_empty_iff (profile : List (ℝ × ℝ)) (tooth_angle rot_ang : ℝ)
    (tooth_idx : ℕ) (sec_st sec_en : ℝ) :
    tooth_pts_in_sector profile tooth_angle rot_ang tooth_idx sec_st sec_en = []
      ↔ ∀ pt ∈ rotated_tooth profile tooth_angle rot_ang tooth_idx,
          is_within_ang (cartesian_to_polar pt.1 pt.2).1 sec_st sec_en = false := by
  unfold tooth_pts_in_sector
  rw [nonzeroIndices_eq_nil_iff]
  constructor
  · intro h pt hpt
    exact h _ (List.mem_map_of_mem _ hpt)
  · rintro h b hb
    obtain ⟨pt, hpt, rfl⟩ := List.mem_map.mp hb
    exact h pt hpt

/-- C5: `get_sector_profile` raises the `ValueError` exactly when the single-tooth
case applies (no full teeth and both sector boundaries clipped inside the same
tooth) and no sampled point of that rotated tooth lies within the angular sector;
in every other case it returns a point sequence without raising, and the narrow
segment message is the only error it produces. -/
theorem get_sector_profile_error_iff (profile : List (ℝ × ℝ)) (tooth_angle p : ℝ)
    (N : ℕ) (sec_st sec_en rot_ang : ℝ) {res : SortoutResult}
    (hsort : sortout_teeth p tooth_angle (profile_ang0 profile rot_ang) N sec_st sec_en
      = some res) :
    ((get_sector_profile profile tooth_angle p N sec_st sec_en rot_ang
        = some (Except.error "The segment is too narrow; no points inside!"))
      ↔ (res.full_teeth_ins = [] ∧ res.st_tooth_idx = res.en_tooth_idx
          ∧ ∀ pt ∈ rotated_tooth profile tooth_angle rot_ang res.st_tooth_idx,
              is_within_ang (cartesian_to_polar pt.1 pt.2).1 sec_st sec_en = false))
    ∧ (∀ msg, get_sector_profile profile tooth_angle p N sec_st sec_en rot_ang
          = some (Except.error msg)
        → msg = "The segment is too narrow; no points inside!")
    ∧ (¬ (res.full_teeth_ins = [] ∧ res.st_tooth_idx = res.en_tooth_idx
          ∧ ∀ pt ∈ rotated_tooth profile tooth_angle rot_ang res.st_tooth_idx,
              is_within_ang (cartesian_to_polar pt.1 pt.2).1 sec_st sec_en = false)
        → ∃ pts, get_sector_profile profile tooth_angle p N sec_st sec_en rot_ang
            = some (Except.ok pts)) := by
  have hunfold : get_sector_profile profile tooth_angle p N sec_st sec_en rot_ang
      = if res.full_teeth_ins = [] ∧ res.st_tooth_idx = res.en_tooth_idx then
          (if tooth_pts_in_sector profile tooth_angle rot_ang res.st_tooth_idx sec_st
              sec_en = [] then
            some (Except.error "The segment is too narrow; no points inside!")
          else
            some (Except.ok
              (((rotated_tooth profile tooth_angle rot_ang res.st_tooth_idx).drop
                  ((tooth_pts_in_sector profile tooth_angle rot_ang res.st_tooth_idx
                      sec_st sec_en).headD 0)).take
                ((tooth_pts_in_sector profile tooth_angle rot_ang res.st_tooth_idx
                    sec_st sec_en).getLastD 0 + 1
                  - (tooth_pts_in_sector profile tooth_angle rot_ang res.st_tooth_idx
                      sec_st sec_en).headD 0))))
        else
          some (Except.ok (stack_curves
            (get_term_tooth_profile profile tooth_angle res.st_tooth_idx sec_st sec_en
                rot_ang false
              :: (res.full_teeth_ins.map
                    (fun i => rotated_tooth profile tooth_angle rot_ang i)
                  ++ [get_term_tooth_profile profile tooth_angle res.en_tooth_idx sec_st
                        sec_en rot_ang true])))) := by
    unfold get_sector_profile
    rw [hsort]
  rw [hunfold]
  by_cases hcond : res.full_teeth_ins = [] ∧ res.st_tooth_idx = res.en_tooth_idx
  · rw [if_pos hcond]
    by_cases hnz : tooth_pts_in_sector profile tooth_angle rot_ang res.st_tooth_idx
        sec_st sec_en = []
    · rw [if_pos hnz]
      refine ⟨⟨fun _ => ⟨hcond.1, hcond.2,
        (tooth_pts_empty_iff profile tooth_angle rot_ang res.st_tooth_idx sec_st
          sec_en).mp hnz⟩, fun _ => rfl⟩, ?_, ?_⟩
      · intro msg hmsg
        simp only [Option.some.injEq, Except.error.injEq] at hmsg
        exact hmsg.symm
      · intro hneg
        exact absurd ⟨hcond.1, hcond.2, (tooth_pts_empty_iff profile tooth_angle rot_ang
          res.st_tooth_idx sec_st sec_en).mp hnz⟩ hneg
    · rw [if_neg hnz]
      refine ⟨⟨fun hcon => absurd hcon (by simp), fun hfull =>
        absurd ((tooth_pts_empty_iff profile tooth_angle rot_ang res.st_tooth_idx sec_st
          sec_en).mpr hfull.2.2) hnz⟩, ?_, ?_⟩
      · intro msg hmsg
        exact absurd hmsg (by simp)
      · intro _
        exact ⟨_, rfl⟩
  · rw [if_neg hcond]
    refine ⟨⟨fun hcon => absurd hcon (by simp), fun hfull =>
      absurd ⟨hfull.1, hfull.2.1⟩ hcond⟩, ?_, ?_⟩
    · intro msg hmsg
      exact absurd hmsg (by simp)
    · intro _
      exact ⟨_, rfl⟩

/-- Evaluation of the tooth-sorting step over the reals at circumference `3`,
tooth span `1`, reference angle `0`, sector from `1` to `0`. -/
theorem sortout_eval_real : sortout_teeth (3 : ℝ) 1 0 3 1 0 = some ⟨1, [2], 0⟩ := by
  have hest0 : seg_edge_within (3 : ℝ) 1 0 3 1 0 = false := by
    unfold seg_edge_within teeth_sts pyRemainder is_within_ang
    push_cast
    norm_num
  have hest1 : seg_edge_within (3 : ℝ) 1 0 3 1 1 = true := by
    unfold seg_edge_within teeth_sts pyRemainder is_within_ang
    push_cast
    norm_num
  have hest2 : seg_edge_within (3 : ℝ) 1 0 3 1 2 = false := by
    unfold seg_edge_within teeth_sts pyRemainder is_within_ang
    push_cast
    norm_num
  have heen0 : seg_edge_within (3 : ℝ) 1 0 3 0 0 = true := by
    unfold seg_edge_within teeth_sts pyRemainder is_within_ang
    push_cast
    norm_num
  have heen2 : seg_edge_within (3 : ℝ) 1 0 3 0 2 = false := by
    unfold seg_edge_within teeth_sts pyRemainder is_within_ang
    push_cast
    norm_num
  have hbm0 : tooth_st_bm (3 : ℝ) 1 0 1 0 0 = true := by
    unfold tooth_st_bm teeth_sts pyRemainder is_within_ang
    push_cast
    norm_num
  have hbm1 : tooth_st_bm (3 : ℝ) 1 0 1 0 1 = true := by
    unfold tooth_st_bm teeth_sts pyRemainder is_within_ang
    push_cast
    norm_num
  have hbm2 : tooth_st_bm (3 : ℝ) 1 0 1 0 2 = true := by
    unfold tooth_st_bm teeth_sts pyRemainder is_within_ang
    push_cast
    norm_num
  have hfull0 : full_tooth_bm (3 : ℝ) 1 0 3 1 0 0 = false := by
    unfold full_tooth_bm
    norm_num [hbm0, hbm1, hest0, heen0]
  have hfull1 : full_tooth_bm (3 : ℝ) 1 0 3 1 0 1 = false := by
    unfold full_tooth_bm
    norm_num [hbm1, hbm2, hest1]
  have hfull2 : full_tooth_bm (3 : ℝ) 1 0 3 1 0 2 = true := by
    unfold full_tooth_bm
    norm_num [hbm2, hbm0, hest2, heen2]
  unfold sortout_teeth
  rw [show List.range 3 = [0, 1, 2] from rfl]
  rw [show List.find? (seg_edge_within (3 : ℝ) 1 0 3 1) [0, 1, 2] = some 1 from by
    simp only [List.find?_cons, hest0, hest1]]
  rw [show List.find? (seg_edge_within (3 : ℝ) 1 0 3 0) [0, 1, 2] = some 0 from by
    simp only [List.find?_cons, heen0]]
  rw [show List.filter (full_tooth_bm (3 : ℝ) 1 0 3 1 0) [0, 1, 2] = [2] from by
    simp only [List.filter_cons, hfull0, hfull1, hfull2]
    rfl]
  rfl

/-- Concrete witness for the sector-profile error classification: an empty sampled
profile with a proper multi-tooth sector takes the stitching branch and returns a
point sequence with no error. -/
theorem get_sector_profile_error_iff_witness :
    profile_ang0 ([] : List (ℝ × ℝ)) 0 = 0
    ∧ ∃ pts, get_sector_profile ([] : List (ℝ × ℝ)) 1 3 3 1 0 0
        = some (Except.ok pts) := by
  have hang0 : profile_ang0 ([] : List (ℝ × ℝ)) 0 = 0 := by
    unfold profile_ang0 cartesian_to_polar arctan2
    simp [Complex.arg_zero]
    unfold pyRemainder
    simp
  have hsort : sortout_teeth (3 : ℝ) 1 (profile_ang0 ([] : List (ℝ × ℝ)) 0) 3 1 0
      = some ⟨1, [2], 0⟩ := by
    rw [hang0]
    exact sortout_eval_real
  have h := get_sector_profile_error_iff [] 1 3 3 1 0 0 hsort
  refine ⟨hang0, h.2.2 ?_⟩
  intro hc
  exact absurd hc.1 (by simp)
